import Mathlib

/-!
# Varint / ZigZag codec of `src/deps/protobuf/Codec/VarInt.hpp`

Shallow embedding of the functions of namespace `proto::codec` and proofs of
their contracts.

Conventions of the embedding.

* A byte (`uint8_t`) is a `Fin 256`; integer promotion of a byte is `Fin.val`.
* `uint32_t` / `uint64_t` values are natural numbers below `2 ^ 32` / `2 ^ 64`;
  every operation of the source that can leave that range is followed by an
  explicit `% 2 ^ 32` / `% 2 ^ 64`.
* `int32_t` / `int64_t` values are integers in `[-2 ^ 31, 2 ^ 31)` /
  `[-2 ^ 63, 2 ^ 63)`; conversions between the signed and the unsigned type of
  a width are the two's-complement ones (`toUInt32`, `toInt32`, ...).
* A reader works on a byte sequence view `bs` (`begin` is offset `0`, `end` is
  offset `bs.length`) and a cursor `ptr`, an offset into `bs`.  It returns the
  value stored through `out` (`none` when the function returned `false` and
  left `out` untouched) and the cursor after the call.
* A writer returns the bytes it stored through the cursor, in the order they
  were stored: byte `i` of the result is the byte stored at `ptr + i`, and the
  returned pointer is `ptr` plus the length of the result.
-/

namespace proto.codec

/-! ## Machine integers -/

/-- A `uint8_t`. -/
abbrev Byte := Fin 256

/-- The conversion `static_cast<uint8_t>(n)` of an unsigned value: reduction modulo `2 ^ 8`. -/
def toByte (n : Nat) : Byte := ⟨n % 256, Nat.mod_lt _ (by decide)⟩

/-- Conversion of a signed integer to `uint32_t`: its two's-complement bit pattern. -/
def toUInt32 (n : Int) : Nat := (n % 2 ^ 32).toNat

/-- Conversion of an unsigned value to `int32_t`: the signed reading of its low 32 bits. -/
def toInt32 (u : Nat) : Int :=
  if u % 2 ^ 32 < 2 ^ 31 then ((u % 2 ^ 32 : Nat) : Int) else ((u % 2 ^ 32 : Nat) : Int) - 2 ^ 32

/-- Conversion of a signed integer to `uint64_t`: its two's-complement bit pattern. -/
def toUInt64 (n : Int) : Nat := (n % 2 ^ 64).toNat

/-- Conversion of an unsigned value to `int64_t`: the signed reading of its low 64 bits. -/
def toInt64 (u : Nat) : Int :=
  if u % 2 ^ 64 < 2 ^ 63 then ((u % 2 ^ 64 : Nat) : Int) else ((u % 2 ^ 64 : Nat) : Int) - 2 ^ 64

/-- The range of `int32_t`. -/
def IsInt32 (n : Int) : Prop := -2 ^ 31 ≤ n ∧ n < 2 ^ 31

/-- The range of `int64_t`. -/
def IsInt64 (n : Int) : Prop := -2 ^ 63 ≤ n ∧ n < 2 ^ 63

instance (n : Int) : Decidable (IsInt32 n) := by unfold IsInt32; infer_instance

instance (n : Int) : Decidable (IsInt64 n) := by unfold IsInt64; infer_instance

/-! ## Readers -/

/-- Outcome of a read: `out` is the value stored through the `out` reference (`some v` exactly
when the function returned `true`), `ptr` is the cursor after the call. -/
structure ReadResult (α : Type) where
  out : Option α
  ptr : Nat
deriving DecidableEq, Repr

/-- The `while (ptr < end && shift < 7 * 5)` loop of `readVarint32`, entered with the cursor
`ptr`, the current `shift` and the accumulator `result`.  In
`result |= (byte & 0x7F) << shift` the left operand of the shift is an `int`; the shift wraps
in 32-bit two's complement and its result is converted to `uint32_t`, so the value or-ed into
`result` is `(byte & 0x7F) * 2 ^ shift` modulo `2 ^ 32`: bits shifted past bit 31 are lost.
Falling out of the loop is the `return false` that follows it. -/
def readVarint32.loop (bs : List Byte) (ptr shift result : Nat) : ReadResult Nat :=
  if h : ptr < bs.length ∧ shift < 7 * 5 then
    let byte := bs[ptr]
    let ptr := ptr + 1
    let result := result ||| (((byte.val &&& 0x7F) <<< shift) % 2 ^ 32)
    if byte.val &&& 0x80 = 0 then
      ⟨some result, ptr⟩
    else
      readVarint32.loop bs ptr (shift + 7) result
  else
    ⟨none, ptr⟩
termination_by 7 * 5 - shift
decreasing_by omega

/-- The function `readVarint32(ptr, end, out)`. -/
def readVarint32 (bs : List Byte) (ptr : Nat) : ReadResult Nat :=
  if h : ptr ≥ bs.length then
    ⟨none, ptr⟩
  else
    let byte := bs[ptr]
    let ptr := ptr + 1
    if byte.val &&& 0x80 = 0 then
      ⟨some byte.val, ptr⟩
    else
      readVarint32.loop bs ptr 7 (byte.val &&& 0x7F)

/-- The `while (ptr < end && shift < 7 * 10)` loop of `readVarint64`; the accumulation
`result |= (uint64_t)(byte & 0x7F) << shift` is done in 64 bits. -/
def readVarint64.loop (bs : List Byte) (ptr shift result : Nat) : ReadResult Nat :=
  if h : ptr < bs.length ∧ shift < 7 * 10 then
    let byte := bs[ptr]
    let ptr := ptr + 1
    let result := result ||| (((byte.val &&& 0x7F) <<< shift) % 2 ^ 64)
    if byte.val &&& 0x80 = 0 then
      ⟨some result, ptr⟩
    else
      readVarint64.loop bs ptr (shift + 7) result
  else
    ⟨none, ptr⟩
termination_by 7 * 10 - shift
decreasing_by omega

/-- The function `readVarint64(ptr, end, out)`. -/
def readVarint64 (bs : List Byte) (ptr : Nat) : ReadResult Nat :=
  if h : ptr ≥ bs.length then
    ⟨none, ptr⟩
  else
    let byte := bs[ptr]
    let ptr := ptr + 1
    if byte.val &&& 0x80 = 0 then
      ⟨some byte.val, ptr⟩
    else
      readVarint64.loop bs ptr 7 (byte.val &&& 0x7F)

/-! ## Writers -/

/-- The `while (value >= 0x80)` loop of `writeVarint32`: `out` is the run of bytes stored so
far; the result is the state `(out, value)` at loop exit. -/
def writeVarint32.loop (out : List Byte) (value : Nat) : List Byte × Nat :=
  if 0x80 ≤ value then
    writeVarint32.loop (out ++ [toByte (value ||| 0x80)]) (value >>> 7)
  else
    (out, value)
termination_by value
decreasing_by
  simp only [Nat.shiftRight_eq_div_pow]
  omega

/-- The function `writeVarint32(ptr, value)`: the bytes stored at `ptr`, `ptr + 1`, ... -/
def writeVarint32 (value : Nat) : List Byte :=
  if value < 0x80 then
    [toByte value]
  else
    let s := writeVarint32.loop [] value
    s.1 ++ [toByte s.2]

/-- The `while (value >= 0x80)` loop of `writeVarint64`. -/
def writeVarint64.loop (out : List Byte) (value : Nat) : List Byte × Nat :=
  if 0x80 ≤ value then
    writeVarint64.loop (out ++ [toByte (value ||| 0x80)]) (value >>> 7)
  else
    (out, value)
termination_by value
decreasing_by
  simp only [Nat.shiftRight_eq_div_pow]
  omega

/-- The function `writeVarint64(ptr, value)`: the bytes stored at `ptr`, `ptr + 1`, ... -/
def writeVarint64 (value : Nat) : List Byte :=
  if value < 0x80 then
    [toByte value]
  else
    let s := writeVarint64.loop [] value
    s.1 ++ [toByte s.2]

/-! ## ZigZag -/

/-- The function `zigZagEncode32(n)`, `(n << 1) ^ (n >> 31)`, computed on 32-bit
two's-complement bit patterns: the left shift wraps modulo `2 ^ 32`, the right shift of the
signed operand is arithmetic. -/
def zigZagEncode32 (n : Int) : Nat :=
  let shl : Nat := (toUInt32 n <<< 1) % 2 ^ 32
  let sar : Nat := toUInt32 (n >>> (31 : Nat))
  shl ^^^ sar

/-- The function `zigZagDecode32(n)`, `(n >> 1) ^ -static_cast<int32_t>(n & 1)`: the signed
right operand is converted to `uint32_t` for the exclusive or, whose result is converted to
`int32_t` on return. -/
def zigZagDecode32 (n : Nat) : Int :=
  let neg : Int := -(toInt32 (n &&& 1))
  toInt32 ((n >>> 1) ^^^ toUInt32 neg)

/-- The function `zigZagEncode64(n)`, `(n << 1) ^ (n >> 63)`, on 64-bit bit patterns. -/
def zigZagEncode64 (n : Int) : Nat :=
  let shl : Nat := (toUInt64 n <<< 1) % 2 ^ 64
  let sar : Nat := toUInt64 (n >>> (63 : Nat))
  shl ^^^ sar

/-- The function `zigZagDecode64(n)`, `(n >> 1) ^ -static_cast<int64_t>(n & 1)`. -/
def zigZagDecode64 (n : Nat) : Int :=
  let neg : Int := -(toInt64 (n &&& 1))
  toInt64 ((n >>> 1) ^^^ toUInt64 neg)

/-! ## Signed codec -/

/-- The function `writeSint32(ptr, value)`. -/
def writeSint32 (value : Int) : List Byte :=
  let raw := zigZagEncode32 value
  if raw < 0x80 then
    [toByte raw]
  else
    writeVarint32 raw

/-- The function `writeSint64(ptr, value)`. -/
def writeSint64 (value : Int) : List Byte :=
  let raw := zigZagEncode64 value
  if raw < 0x80 then
    [toByte raw]
  else
    writeVarint64 raw

/-- The function `readSint32(ptr, end, out)`.  On a lead byte with the continuation bit set the
cursor is moved back by one (`ptr--`) and `readVarint32` is run from there. -/
def readSint32 (bs : List Byte) (ptr : Nat) : ReadResult Int :=
  if h : ptr ≥ bs.length then
    ⟨none, ptr⟩
  else
    let first := bs[ptr]
    let ptr := ptr + 1
    if first.val &&& 0x80 = 0 then
      ⟨some (zigZagDecode32 first.val), ptr⟩
    else
      let ptr := ptr - 1
      let r := readVarint32 bs ptr
      match r.out with
      | none => ⟨none, r.ptr⟩
      | some raw => ⟨some (zigZagDecode32 raw), r.ptr⟩

/-- The function `readSint64(ptr, end, out)`. -/
def readSint64 (bs : List Byte) (ptr : Nat) : ReadResult Int :=
  if h : ptr ≥ bs.length then
    ⟨none, ptr⟩
  else
    let first := bs[ptr]
    let ptr := ptr + 1
    if first.val &&& 0x80 = 0 then
      ⟨some (zigZagDecode64 first.val), ptr⟩
    else
      let ptr := ptr - 1
      let r := readVarint64 bs ptr
      match r.out with
      | none => ⟨none, r.ptr⟩
      | some raw => ⟨some (zigZagDecode64 raw), r.ptr⟩

/-! ## Notions used to state the contracts -/

/-- The number denoted by the first `n` payload groups of `bs`, least-significant group first:
the sum over `i < n` of `(bs[i] & 0x7F) * 2 ^ (7 * i)`. -/
def payload (bs : List Byte) (n : Nat) : Nat :=
  ∑ i ∈ Finset.range n, ((bs.getD i 0).val &&& 0x7F) * 2 ^ (7 * i)

/-- The number of bits needed to write `v` in binary, as the specification counts them: `1` for
`0`, otherwise the position of the highest set bit plus one. -/
def bitsNeeded (v : Nat) : Nat :=
  if v = 0 then 1 else Nat.log2 v + 1

/-! ## Readers with a record of the bytes they dereference

The same functions once more, each returning, next to its outcome, the offsets at which it
evaluates `*ptr`, in order.  Here a dereference is the total `bs.getD ptr 0`, so the
definitions do not presuppose that the offset is inside the view. -/

/-- The loop of `readVarint32`, with the offsets it dereferences. -/
def readVarint32.loopTraced (bs : List Byte) (ptr shift result : Nat) :
    ReadResult Nat × List Nat :=
  if ptr < bs.length ∧ shift < 7 * 5 then
    let byte := bs.getD ptr 0
    let at_ := ptr
    let ptr := ptr + 1
    let result := result ||| (((byte.val &&& 0x7F) <<< shift) % 2 ^ 32)
    if byte.val &&& 0x80 = 0 then
      (⟨some result, ptr⟩, [at_])
    else
      let t := readVarint32.loopTraced bs ptr (shift + 7) result
      (t.1, at_ :: t.2)
  else
    (⟨none, ptr⟩, [])
termination_by 7 * 5 - shift
decreasing_by omega

/-- The function `readVarint32`, with the offsets it dereferences. -/
def readVarint32Traced (bs : List Byte) (ptr : Nat) : ReadResult Nat × List Nat :=
  if ptr ≥ bs.length then
    (⟨none, ptr⟩, [])
  else
    let byte := bs.getD ptr 0
    let at_ := ptr
    let ptr := ptr + 1
    if byte.val &&& 0x80 = 0 then
      (⟨some byte.val, ptr⟩, [at_])
    else
      let t := readVarint32.loopTraced bs ptr 7 (byte.val &&& 0x7F)
      (t.1, at_ :: t.2)

/-- The loop of `readVarint64`, with the offsets it dereferences. -/
def readVarint64.loopTraced (bs : List Byte) (ptr shift result : Nat) :
    ReadResult Nat × List Nat :=
  if ptr < bs.length ∧ shift < 7 * 10 then
    let byte := bs.getD ptr 0
    let at_ := ptr
    let ptr := ptr + 1
    let result := result ||| (((byte.val &&& 0x7F) <<< shift) % 2 ^ 64)
    if byte.val &&& 0x80 = 0 then
      (⟨some result, ptr⟩, [at_])
    else
      let t := readVarint64.loopTraced bs ptr (shift + 7) result
      (t.1, at_ :: t.2)
  else
    (⟨none, ptr⟩, [])
termination_by 7 * 10 - shift
decreasing_by omega

/-- The function `readVarint64`, with the offsets it dereferences. -/
def readVarint64Traced (bs : List Byte) (ptr : Nat) : ReadResult Nat × List Nat :=
  if ptr ≥ bs.length then
    (⟨none, ptr⟩, [])
  else
    let byte := bs.getD ptr 0
    let at_ := ptr
    let ptr := ptr + 1
    if byte.val &&& 0x80 = 0 then
      (⟨some byte.val, ptr⟩, [at_])
    else
      let t := readVarint64.loopTraced bs ptr 7 (byte.val &&& 0x7F)
      (t.1, at_ :: t.2)

/-- The function `readSint32`, with the offsets it dereferences: the lead byte, then, after the
`ptr--`, whatever `readVarint32` dereferences. -/
def readSint32Traced (bs : List Byte) (ptr : Nat) : ReadResult Int × List Nat :=
  if ptr ≥ bs.length then
    (⟨none, ptr⟩, [])
  else
    let first := bs.getD ptr 0
    let at_ := ptr
    let ptr := ptr + 1
    if first.val &&& 0x80 = 0 then
      (⟨some (zigZagDecode32 first.val), ptr⟩, [at_])
    else
      let ptr := ptr - 1
      let t := readVarint32Traced bs ptr
      match t.1.out with
      | none => (⟨none, t.1.ptr⟩, at_ :: t.2)
      | some raw => (⟨some (zigZagDecode32 raw), t.1.ptr⟩, at_ :: t.2)

/-- The function `readSint64`, with the offsets it dereferences. -/
def readSint64Traced (bs : List Byte) (ptr : Nat) : ReadResult Int × List Nat :=
  if ptr ≥ bs.length then
    (⟨none, ptr⟩, [])
  else
    let first := bs.getD ptr 0
    let at_ := ptr
    let ptr := ptr + 1
    if first.val &&& 0x80 = 0 then
      (⟨some (zigZagDecode64 first.val), ptr⟩, [at_])
    else
      let ptr := ptr - 1
      let t := readVarint64Traced bs ptr
      match t.1.out with
      | none => (⟨none, t.1.ptr⟩, at_ :: t.2)
      | some raw => (⟨some (zigZagDecode64 raw), t.1.ptr⟩, at_ :: t.2)

/-! ## Bitwise facts -/

theorem xor_two_pow_sub_one (w x : Nat) (h : x < 2 ^ w) : x ^^^ (2 ^ w - 1) = 2 ^ w - 1 - x := by
  have e : 2 ^ w - 1 - x = 2 ^ w - (x + 1) := by omega
  rw [e]
  apply Nat.eq_of_testBit_eq
  intro i
  rw [Nat.testBit_xor, Nat.testBit_two_pow_sub_one, Nat.testBit_two_pow_sub_succ h]
  by_cases hi : i < w
  · simp [hi]
  · have hx : x.testBit i = false :=
      Nat.testBit_lt_two_pow (lt_of_lt_of_le h (Nat.pow_le_pow_right (by decide) (by omega)))
    simp [hi, hx]

theorem or_0x80_mod (v : Nat) : (v ||| 0x80) % 256 = v % 128 + 128 := by
  have e : v % 128 + 128 = 2 ^ 7 * 1 ||| v % 2 ^ 7 := by
    rw [← Nat.mul_add_lt_is_or (Nat.mod_lt _ (by decide))]; omega
  have e1 : (0x80 : Nat) = 2 ^ 7 := by norm_num
  have e2 : (256 : Nat) = 2 ^ 8 := by norm_num
  rw [e, e1, e2]
  apply Nat.eq_of_testBit_eq
  intro i
  simp only [Nat.testBit_mod_two_pow, Nat.testBit_or, Nat.testBit_two_pow, Nat.mul_one]
  by_cases h7 : i < 7
  · have : i < 8 := by omega
    have : ¬ 7 = i := by omega
    simp [*]
  · by_cases h8 : i = 7
    · subst h8; simp
    · have : ¬ i < 8 := by omega
      have : ¬ 7 = i := by omega
      simp [*]

theorem and_0x7F (x : Nat) : x &&& 0x7F = x % 128 := Nat.and_pow_two_sub_one_eq_mod x 7

set_option maxRecDepth 100000 in
theorem byte_and_0x80 : ∀ b : Fin 256, (b.val &&& 0x80 = 0 ↔ b.val < 128) := by decide

theorem or_shiftLeft_mod (W s r g : Nat) (hs : s ≤ W) (hr : r < 2 ^ s) :
    r ||| ((g <<< s) % 2 ^ W) = (r + g * 2 ^ s) % 2 ^ W := by
  have hW : 2 ^ W = 2 ^ (W - s) * 2 ^ s := by rw [← pow_add]; congr 1; omega
  have hM : 0 < 2 ^ (W - s) := Nat.pow_pos (by decide)
  have hg := Nat.div_add_mod g (2 ^ (W - s))
  have hlt := Nat.mod_lt g hM
  generalize 2 ^ (W - s) = M at *
  generalize g / M = q at *
  generalize g % M = g1 at *
  subst hg
  have h1 : r + (M * q + g1) * 2 ^ s = (r + g1 * 2 ^ s) + (M * 2 ^ s) * q := by ring
  have h2 : r + g1 * 2 ^ s < M * 2 ^ s := by
    have : (g1 + 1) * 2 ^ s ≤ M * 2 ^ s := Nat.mul_le_mul_right _ hlt
    linarith
  have h3 : (M * q + g1) * 2 ^ s = g1 * 2 ^ s + (M * 2 ^ s) * q := by ring
  rw [Nat.shiftLeft_eq, hW, h1, Nat.add_mul_mod_self_left, Nat.mod_eq_of_lt h2,
    h3, Nat.add_mul_mod_self_left, Nat.mod_eq_of_lt (by linarith), Nat.or_comm,
    Nat.mul_comm g1, ← Nat.mul_add_lt_is_or hr]
  ring

/-! ## ZigZag: closed forms -/

theorem zigZagEncode32_eq (n : Int) (h : IsInt32 n) :
    (zigZagEncode32 n : Int) = if 0 ≤ n then 2 * n else -2 * n - 1 := by
  obtain ⟨h0, h1⟩ := h
  by_cases hn : 0 ≤ n
  · have e1 : toUInt32 n = n.toNat := by unfold toUInt32; omega
    have e2 : toUInt32 (n >>> (31 : Nat)) = 0 := by
      rw [Int.shiftRight_eq_div_pow]; unfold toUInt32; omega
    simp only [zigZagEncode32, e1, e2, if_pos hn, Nat.xor_zero, Nat.shiftLeft_eq]
    omega
  · have e1 : toUInt32 n = (n + 2 ^ 32).toNat := by unfold toUInt32; omega
    have e2 : toUInt32 (n >>> (31 : Nat)) = 2 ^ 32 - 1 := by
      rw [Int.shiftRight_eq_div_pow]; unfold toUInt32; omega
    simp only [zigZagEncode32, e1, e2, if_neg hn, Nat.shiftLeft_eq]
    rw [xor_two_pow_sub_one 32 _ (Nat.mod_lt _ (by decide))]
    omega

theorem zigZagDecode32_eq (u : Nat) (h : u < 2 ^ 32) :
    zigZagDecode32 u = if u % 2 = 0 then ((u / 2 : Nat) : Int) else -((u / 2 : Nat) : Int) - 1 := by
  have hs : u >>> 1 = u / 2 := by rw [Nat.shiftRight_eq_div_pow]
  by_cases hu : u % 2 = 0
  · have e1 : toUInt32 (-(toInt32 (u &&& 1))) = 0 := by
      rw [Nat.and_one_is_mod, hu]; decide
    simp only [zigZagDecode32, e1, hs, if_pos hu, Nat.xor_zero]
    unfold toInt32; omega
  · have e1 : toUInt32 (-(toInt32 (u &&& 1))) = 2 ^ 32 - 1 := by
      have : u % 2 = 1 := by omega
      rw [Nat.and_one_is_mod, this]; decide
    simp only [zigZagDecode32, e1, hs, if_neg hu]
    rw [xor_two_pow_sub_one 32 _ (by omega)]
    unfold toInt32; omega

theorem zigZagEncode64_eq (n : Int) (h : IsInt64 n) :
    (zigZagEncode64 n : Int) = if 0 ≤ n then 2 * n else -2 * n - 1 := by
  obtain ⟨h0, h1⟩ := h
  by_cases hn : 0 ≤ n
  · have e1 : toUInt64 n = n.toNat := by unfold toUInt64; omega
    have e2 : toUInt64 (n >>> (63 : Nat)) = 0 := by
      rw [Int.shiftRight_eq_div_pow]; unfold toUInt64; omega
    simp only [zigZagEncode64, e1, e2, if_pos hn, Nat.xor_zero, Nat.shiftLeft_eq]
    omega
  · have e1 : toUInt64 n = (n + 2 ^ 64).toNat := by unfold toUInt64; omega
    have e2 : toUInt64 (n >>> (63 : Nat)) = 2 ^ 64 - 1 := by
      rw [Int.shiftRight_eq_div_pow]; unfold toUInt64; omega
    simp only [zigZagEncode64, e1, e2, if_neg hn, Nat.shiftLeft_eq]
    rw [xor_two_pow_sub_one 64 _ (Nat.mod_lt _ (by decide))]
    omega

theorem zigZagDecode64_eq (u : Nat) (h : u < 2 ^ 64) :
    zigZagDecode64 u = if u % 2 = 0 then ((u / 2 : Nat) : Int) else -((u / 2 : Nat) : Int) - 1 := by
  have hs : u >>> 1 = u / 2 := by rw [Nat.shiftRight_eq_div_pow]
  by_cases hu : u % 2 = 0
  · have e1 : toUInt64 (-(toInt64 (u &&& 1))) = 0 := by
      rw [Nat.and_one_is_mod, hu]; decide
    simp only [zigZagDecode64, e1, hs, if_pos hu, Nat.xor_zero]
    unfold toInt64; omega
  · have e1 : toUInt64 (-(toInt64 (u &&& 1))) = 2 ^ 64 - 1 := by
      have : u % 2 = 1 := by omega
      rw [Nat.and_one_is_mod, this]; decide
    simp only [zigZagDecode64, e1, hs, if_neg hu]
    rw [xor_two_pow_sub_one 64 _ (by omega)]
    unfold toInt64; omega


theorem zigZagEncode32_lt (n : Int) (h : IsInt32 n) : zigZagEncode32 n < 2 ^ 32 := by
  have e := zigZagEncode32_eq n h
  obtain ⟨h0, h1⟩ := h
  split_ifs at e <;> omega

theorem zigZagEncode64_lt (n : Int) (h : IsInt64 n) : zigZagEncode64 n < 2 ^ 64 := by
  have e := zigZagEncode64_eq n h
  obtain ⟨h0, h1⟩ := h
  split_ifs at e <;> omega

theorem zigZagDecode32_isInt32 (u : Nat) (h : u < 2 ^ 32) : IsInt32 (zigZagDecode32 u) := by
  rw [zigZagDecode32_eq u h]
  unfold IsInt32
  split_ifs <;> omega

theorem zigZagDecode64_isInt64 (u : Nat) (h : u < 2 ^ 64) : IsInt64 (zigZagDecode64 u) := by
  rw [zigZagDecode64_eq u h]
  unfold IsInt64
  split_ifs <;> omega

theorem zigZagDecode32_encode32 (n : Int) (h : IsInt32 n) :
    zigZagDecode32 (zigZagEncode32 n) = n := by
  have e := zigZagEncode32_eq n h
  rw [zigZagDecode32_eq _ (zigZagEncode32_lt n h)]
  obtain ⟨h0, h1⟩ := h
  split_ifs at e ⊢ <;> omega

theorem zigZagDecode64_encode64 (n : Int) (h : IsInt64 n) :
    zigZagDecode64 (zigZagEncode64 n) = n := by
  have e := zigZagEncode64_eq n h
  rw [zigZagDecode64_eq _ (zigZagEncode64_lt n h)]
  obtain ⟨h0, h1⟩ := h
  split_ifs at e ⊢ <;> omega

theorem zigZagEncode32_decode32 (u : Nat) (h : u < 2 ^ 32) :
    zigZagEncode32 (zigZagDecode32 u) = u := by
  have hr := zigZagDecode32_isInt32 u h
  have e := zigZagEncode32_eq _ hr
  rw [zigZagDecode32_eq u h] at e hr ⊢
  unfold IsInt32 at hr
  split_ifs at e hr ⊢ <;> omega

theorem zigZagEncode64_decode64 (u : Nat) (h : u < 2 ^ 64) :
    zigZagEncode64 (zigZagDecode64 u) = u := by
  have hr := zigZagDecode64_isInt64 u h
  have e := zigZagEncode64_eq _ hr
  rw [zigZagDecode64_eq u h] at e hr ⊢
  unfold IsInt64 at hr
  split_ifs at e hr ⊢ <;> omega


/-! ## Writers: recursion equations -/

theorem shiftRight_seven_lt (v : Nat) (h : 0x80 ≤ v) : v >>> 7 < v := by
  simp only [Nat.shiftRight_eq_div_pow]
  omega

theorem writeVarint32_loop_append (out : List Byte) (v : Nat) :
    writeVarint32.loop out v =
      (out ++ (writeVarint32.loop [] v).1, (writeVarint32.loop [] v).2) := by
  induction v using Nat.strong_induction_on generalizing out with
  | _ v ih =>
    by_cases h : 0x80 ≤ v
    · rw [writeVarint32.loop, if_pos h, ih _ (shiftRight_seven_lt v h)]
      conv_rhs => rw [writeVarint32.loop, if_pos h, ih _ (shiftRight_seven_lt v h)]
      simp
    · have e : writeVarint32.loop [] v = ([], v) := by rw [writeVarint32.loop, if_neg h]
      rw [e, writeVarint32.loop, if_neg h]
      simp

theorem writeVarint32_lt (v : Nat) (h : v < 0x80) : writeVarint32 v = [toByte v] := by
  simp [writeVarint32, h]

theorem writeVarint32_ge (v : Nat) (h : 0x80 ≤ v) :
    writeVarint32 v = toByte (v ||| 0x80) :: writeVarint32 (v >>> 7) := by
  have hv : ¬ v < 0x80 := by omega
  rw [writeVarint32, if_neg hv]
  simp only
  rw [writeVarint32.loop, if_pos h, writeVarint32_loop_append]
  by_cases h2 : v >>> 7 < 0x80
  · have h3 : ¬ 0x80 ≤ v >>> 7 := by omega
    rw [writeVarint32_lt _ h2, writeVarint32.loop, if_neg h3]
    simp
  · rw [writeVarint32, if_neg h2]
    simp
theorem writeVarint64_loop_append (out : List Byte) (v : Nat) :
    writeVarint64.loop out v =
      (out ++ (writeVarint64.loop [] v).1, (writeVarint64.loop [] v).2) := by
  induction v using Nat.strong_induction_on generalizing out with
  | _ v ih =>
    by_cases h : 0x80 ≤ v
    · rw [writeVarint64.loop, if_pos h, ih _ (shiftRight_seven_lt v h)]
      conv_rhs => rw [writeVarint64.loop, if_pos h, ih _ (shiftRight_seven_lt v h)]
      simp
    · have e : writeVarint64.loop [] v = ([], v) := by rw [writeVarint64.loop, if_neg h]
      rw [e, writeVarint64.loop, if_neg h]
      simp

theorem writeVarint64_lt (v : Nat) (h : v < 0x80) : writeVarint64 v = [toByte v] := by
  simp [writeVarint64, h]

theorem writeVarint64_ge (v : Nat) (h : 0x80 ≤ v) :
    writeVarint64 v = toByte (v ||| 0x80) :: writeVarint64 (v >>> 7) := by
  have hv : ¬ v < 0x80 := by omega
  rw [writeVarint64, if_neg hv]
  simp only
  rw [writeVarint64.loop, if_pos h, writeVarint64_loop_append]
  by_cases h2 : v >>> 7 < 0x80
  · have h3 : ¬ 0x80 ≤ v >>> 7 := by omega
    rw [writeVarint64_lt _ h2, writeVarint64.loop, if_neg h3]
    simp
  · rw [writeVarint64, if_neg h2]
    simp


/-! ## Readers: the value of a terminated run of groups -/

theorem payload_succ (bs : List Byte) (n : Nat) (h : n < bs.length) :
    payload bs (n + 1) = payload bs n + (bs[n].val &&& 0x7F) * 2 ^ (7 * n) := by
  unfold payload
  rw [Finset.sum_range_succ, List.getD_eq_getElem bs 0 h]

theorem payload_lt (bs : List Byte) (n : Nat) : payload bs n < 2 ^ (7 * n) := by
  induction n with
  | zero => simp [payload]
  | succ n ih =>
    unfold payload at ih ⊢
    rw [Finset.sum_range_succ]
    have hg : (bs.getD n 0).val &&& 0x7F < 128 := by rw [and_0x7F]; omega
    have e : 2 ^ (7 * (n + 1)) = 128 * 2 ^ (7 * n) := by
      rw [Nat.mul_add, pow_add]; norm_num; ring
    rw [e]
    have : ((bs.getD n 0).val &&& 0x7F) * 2 ^ (7 * n) ≤ 127 * 2 ^ (7 * n) :=
      Nat.mul_le_mul_right _ (by omega)
    omega

theorem readVarint32_loop_terminated (bs : List Byte) (k : Nat) (hk : k < bs.length)
    (hk5 : k < 5) (hterm : bs[k].val &&& 0x80 = 0)
    (hcont : ∀ i (hi : i < k), bs[i].val &&& 0x80 ≠ 0) (d : Nat) :
    ∀ p, 1 ≤ p → p + d = k →
      readVarint32.loop bs p (7 * p) (payload bs p) =
        ⟨some (payload bs (k + 1) % 2 ^ 32), k + 1⟩ := by
  induction d with
  | zero =>
    intro p _ hpk
    have hpk : p = k := by omega
    subst hpk
    have hc : p < bs.length ∧ 7 * p < 7 * 5 := ⟨hk, by omega⟩
    rw [readVarint32.loop, dif_pos hc]
    simp only [hterm, if_true]
    rw [or_shiftLeft_mod 32 _ _ _ (by omega) (payload_lt bs p), payload_succ bs p hk]
  | succ d ih =>
    intro p hp hpk
    have hpl : p < bs.length := by omega
    have hc : p < bs.length ∧ 7 * p < 7 * 5 := ⟨hpl, by omega⟩
    rw [readVarint32.loop, dif_pos hc]
    simp only [hcont p (by omega), if_false]
    rw [or_shiftLeft_mod 32 _ _ _ (by omega) (payload_lt bs p), ← payload_succ bs p hpl]
    have hlt : payload bs (p + 1) < 2 ^ 32 :=
      lt_of_lt_of_le (payload_lt bs (p + 1)) (Nat.pow_le_pow_right (by decide) (by omega))
    rw [Nat.mod_eq_of_lt hlt]
    have e : 7 * p + 7 = 7 * (p + 1) := by ring
    rw [e]
    exact ih (p + 1) (by omega) (by omega)

theorem readVarint32_terminated (bs : List Byte) (k : Nat) (hk : k < bs.length)
    (hk5 : k < 5) (hterm : bs[k].val &&& 0x80 = 0)
    (hcont : ∀ i (hi : i < k), bs[i].val &&& 0x80 ≠ 0) :
    readVarint32 bs 0 = ⟨some (payload bs (k + 1) % 2 ^ 32), k + 1⟩ := by
  have h0 : ¬ 0 ≥ bs.length := by omega
  have hp1 : payload bs 1 = bs[0].val &&& 0x7F := by
    rw [payload_succ bs 0 (by omega)]; simp [payload]
  rw [readVarint32, dif_neg h0]
  by_cases hk0 : k = 0
  · subst hk0
    simp only [hterm, if_true]
    have hb : bs[0].val < 128 := (byte_and_0x80 bs[0]).1 hterm
    rw [hp1, and_0x7F, Nat.mod_eq_of_lt hb, Nat.mod_eq_of_lt (by omega)]
  · simp only [hcont 0 (by omega), if_false]
    rw [← hp1]
    exact readVarint32_loop_terminated bs k hk hk5 hterm hcont (k - 1) 1 (by omega) (by omega)

theorem readVarint64_loop_terminated (bs : List Byte) (k : Nat) (hk : k < bs.length)
    (hk5 : k < 10) (hterm : bs[k].val &&& 0x80 = 0)
    (hcont : ∀ i (hi : i < k), bs[i].val &&& 0x80 ≠ 0) (d : Nat) :
    ∀ p, 1 ≤ p → p + d = k →
      readVarint64.loop bs p (7 * p) (payload bs p) =
        ⟨some (payload bs (k + 1) % 2 ^ 64), k + 1⟩ := by
  induction d with
  | zero =>
    intro p _ hpk
    have hpk : p = k := by omega
    subst hpk
    have hc : p < bs.length ∧ 7 * p < 7 * 10 := ⟨hk, by omega⟩
    rw [readVarint64.loop, dif_pos hc]
    simp only [hterm, if_true]
    rw [or_shiftLeft_mod 64 _ _ _ (by omega) (payload_lt bs p), payload_succ bs p hk]
  | succ d ih =>
    intro p hp hpk
    have hpl : p < bs.length := by omega
    have hc : p < bs.length ∧ 7 * p < 7 * 10 := ⟨hpl, by omega⟩
    rw [readVarint64.loop, dif_pos hc]
    simp only [hcont p (by omega), if_false]
    rw [or_shiftLeft_mod 64 _ _ _ (by omega) (payload_lt bs p), ← payload_succ bs p hpl]
    have hlt : payload bs (p + 1) < 2 ^ 64 :=
      lt_of_lt_of_le (payload_lt bs (p + 1)) (Nat.pow_le_pow_right (by decide) (by omega))
    rw [Nat.mod_eq_of_lt hlt]
    have e : 7 * p + 7 = 7 * (p + 1) := by ring
    rw [e]
    exact ih (p + 1) (by omega) (by omega)

theorem readVarint64_terminated (bs : List Byte) (k : Nat) (hk : k < bs.length)
    (hk5 : k < 10) (hterm : bs[k].val &&& 0x80 = 0)
    (hcont : ∀ i (hi : i < k), bs[i].val &&& 0x80 ≠ 0) :
    readVarint64 bs 0 = ⟨some (payload bs (k + 1) % 2 ^ 64), k + 1⟩ := by
  have h0 : ¬ 0 ≥ bs.length := by omega
  have hp1 : payload bs 1 = bs[0].val &&& 0x7F := by
    rw [payload_succ bs 0 (by omega)]; simp [payload]
  rw [readVarint64, dif_neg h0]
  by_cases hk0 : k = 0
  · subst hk0
    simp only [hterm, if_true]
    have hb : bs[0].val < 128 := (byte_and_0x80 bs[0]).1 hterm
    rw [hp1, and_0x7F, Nat.mod_eq_of_lt hb, Nat.mod_eq_of_lt (by omega)]
  · simp only [hcont 0 (by omega), if_false]
    rw [← hp1]
    exact readVarint64_loop_terminated bs k hk hk5 hterm hcont (k - 1) 1 (by omega) (by omega)


/-! ## Writers: shape of the output -/

theorem toByte_val (n : Nat) : (toByte n).val = n % 256 := rfl

theorem writeVarint32_length_pos (v : Nat) : 1 ≤ (writeVarint32 v).length := by
  by_cases h : v < 0x80
  · rw [writeVarint32_lt v h]; simp
  · rw [writeVarint32_ge v (by omega)]; simp

theorem writeVarint32_length_le (n : Nat) :
    ∀ v, v < 2 ^ (7 * (n + 1)) → (writeVarint32 v).length ≤ n + 1 := by
  induction n with
  | zero =>
    intro v hv
    rw [writeVarint32_lt v (by simpa using hv)]; simp
  | succ n ih =>
    intro v hv
    by_cases h : v < 0x80
    · rw [writeVarint32_lt v h]; simp
    · rw [writeVarint32_ge v (by omega)]
      have e : 2 ^ (7 * (n + 1 + 1)) = 128 * 2 ^ (7 * (n + 1)) := by
        rw [Nat.mul_add 7 (n + 1) 1, pow_add]; norm_num; ring
      have hs : v >>> 7 < 2 ^ (7 * (n + 1)) := by
        rw [Nat.shiftRight_eq_div_pow]
        apply Nat.div_lt_of_lt_mul
        rw [e] at hv
        norm_num
        omega
      have := ih _ hs
      simp only [List.length_cons]
      omega

theorem writeVarint32_getElem_cont (i : Nat) :
    ∀ v, i + 1 < (writeVarint32 v).length →
      (writeVarint32 v)[i]? = some (toByte ((v >>> (7 * i)) ||| 0x80)) := by
  induction i with
  | zero =>
    intro v hv
    by_cases h : v < 0x80
    · rw [writeVarint32_lt v h] at hv; simp at hv
    · rw [writeVarint32_ge v (by omega)]; simp
  | succ i ih =>
    intro v hv
    by_cases h : v < 0x80
    · rw [writeVarint32_lt v h] at hv; simp at hv
    · rw [writeVarint32_ge v (by omega)] at hv ⊢
      simp only [List.length_cons] at hv
      have e : v >>> (7 * (i + 1)) = (v >>> 7) >>> (7 * i) := by
        rw [← Nat.shiftRight_add]; congr 1; ring
      rw [List.getElem?_cons_succ, e]
      exact ih _ (by omega)

theorem writeVarint32_getElem_last (i : Nat) :
    ∀ v, i + 1 = (writeVarint32 v).length →
      (writeVarint32 v)[i]? = some (toByte (v >>> (7 * i))) ∧ v >>> (7 * i) < 0x80 := by
  induction i with
  | zero =>
    intro v hv
    by_cases h : v < 0x80
    · rw [writeVarint32_lt v h]; simpa using h
    · have := writeVarint32_length_pos (v >>> 7)
      rw [writeVarint32_ge v (by omega)] at hv
      simp only [List.length_cons] at hv
      omega
  | succ i ih =>
    intro v hv
    by_cases h : v < 0x80
    · rw [writeVarint32_lt v h] at hv; simp at hv
    · rw [writeVarint32_ge v (by omega)] at hv ⊢
      simp only [List.length_cons] at hv
      have e : v >>> (7 * (i + 1)) = (v >>> 7) >>> (7 * i) := by
        rw [← Nat.shiftRight_add]; congr 1; ring
      rw [List.getElem?_cons_succ, e]
      exact ih _ (by omega)
theorem writeVarint64_length_pos (v : Nat) : 1 ≤ (writeVarint64 v).length := by
  by_cases h : v < 0x80
  · rw [writeVarint64_lt v h]; simp
  · rw [writeVarint64_ge v (by omega)]; simp

theorem writeVarint64_length_le (n : Nat) :
    ∀ v, v < 2 ^ (7 * (n + 1)) → (writeVarint64 v).length ≤ n + 1 := by
  induction n with
  | zero =>
    intro v hv
    rw [writeVarint64_lt v (by simpa using hv)]; simp
  | succ n ih =>
    intro v hv
    by_cases h : v < 0x80
    · rw [writeVarint64_lt v h]; simp
    · rw [writeVarint64_ge v (by omega)]
      have e : 2 ^ (7 * (n + 1 + 1)) = 128 * 2 ^ (7 * (n + 1)) := by
        rw [Nat.mul_add 7 (n + 1) 1, pow_add]; norm_num; ring
      have hs : v >>> 7 < 2 ^ (7 * (n + 1)) := by
        rw [Nat.shiftRight_eq_div_pow]
        apply Nat.div_lt_of_lt_mul
        rw [e] at hv
        norm_num
        omega
      have := ih _ hs
      simp only [List.length_cons]
      omega

theorem writeVarint64_getElem_cont (i : Nat) :
    ∀ v, i + 1 < (writeVarint64 v).length →
      (writeVarint64 v)[i]? = some (toByte ((v >>> (7 * i)) ||| 0x80)) := by
  induction i with
  | zero =>
    intro v hv
    by_cases h : v < 0x80
    · rw [writeVarint64_lt v h] at hv; simp at hv
    · rw [writeVarint64_ge v (by omega)]; simp
  | succ i ih =>
    intro v hv
    by_cases h : v < 0x80
    · rw [writeVarint64_lt v h] at hv; simp at hv
    · rw [writeVarint64_ge v (by omega)] at hv ⊢
      simp only [List.length_cons] at hv
      have e : v >>> (7 * (i + 1)) = (v >>> 7) >>> (7 * i) := by
        rw [← Nat.shiftRight_add]; congr 1; ring
      rw [List.getElem?_cons_succ, e]
      exact ih _ (by omega)

theorem writeVarint64_getElem_last (i : Nat) :
    ∀ v, i + 1 = (writeVarint64 v).length →
      (writeVarint64 v)[i]? = some (toByte (v >>> (7 * i))) ∧ v >>> (7 * i) < 0x80 := by
  induction i with
  | zero =>
    intro v hv
    by_cases h : v < 0x80
    · rw [writeVarint64_lt v h]; simpa using h
    · have := writeVarint64_length_pos (v >>> 7)
      rw [writeVarint64_ge v (by omega)] at hv
      simp only [List.length_cons] at hv
      omega
  | succ i ih =>
    intro v hv
    by_cases h : v < 0x80
    · rw [writeVarint64_lt v h] at hv; simp at hv
    · rw [writeVarint64_ge v (by omega)] at hv ⊢
      simp only [List.length_cons] at hv
      have e : v >>> (7 * (i + 1)) = (v >>> 7) >>> (7 * i) := by
        rw [← Nat.shiftRight_add]; congr 1; ring
      rw [List.getElem?_cons_succ, e]
      exact ih _ (by omega)


theorem payload_cons (b : Byte) (bs : List Byte) (n : Nat) :
    payload (b :: bs) (n + 1) = (b.val &&& 0x7F) + 128 * payload bs n := by
  unfold payload
  rw [Finset.sum_range_succ', Finset.mul_sum]
  simp only [List.getD_cons_succ, List.getD_cons_zero, Nat.mul_zero, pow_zero, Nat.mul_one]
  rw [Nat.add_comm]
  congr 1
  apply Finset.sum_congr rfl
  intro i _
  have e : 2 ^ (7 * (i + 1)) = 128 * 2 ^ (7 * i) := by
    rw [Nat.mul_add, pow_add]; norm_num; ring
  rw [e]; ring

/-! ## Round trip of the unsigned codec -/

theorem writeVarint32_payload (v : Nat) :
    payload (writeVarint32 v) (writeVarint32 v).length = v := by
  induction v using Nat.strong_induction_on with
  | _ v ih =>
    by_cases h : v < 0x80
    · rw [writeVarint32_lt v h]
      simp only [List.length_singleton]
      rw [payload_cons, and_0x7F, toByte_val]
      simp only [payload, Finset.range_zero, Finset.sum_empty]
      omega
    · rw [writeVarint32_ge v (by omega)]
      simp only [List.length_cons]
      rw [payload_cons, ih _ (shiftRight_seven_lt v (by omega)), and_0x7F, toByte_val,
        or_0x80_mod, Nat.shiftRight_eq_div_pow]
      omega

theorem writeVarint32_last_clear (v : Nat) (k : Nat) (hk : k + 1 = (writeVarint32 v).length) :
    ∃ b, (writeVarint32 v)[k]? = some b ∧ b.val &&& 0x80 = 0 := by
  obtain ⟨h1, h2⟩ := writeVarint32_getElem_last k v hk
  refine ⟨_, h1, (byte_and_0x80 _).2 ?_⟩
  rw [toByte_val]
  generalize v >>> (7 * k) = x at h2 ⊢
  omega

theorem writeVarint32_cont_set (v : Nat) (i : Nat) (hi : i + 1 < (writeVarint32 v).length) :
    ∃ b, (writeVarint32 v)[i]? = some b ∧ b.val &&& 0x80 ≠ 0 := by
  refine ⟨_, writeVarint32_getElem_cont i v hi, fun hc => ?_⟩
  have := (byte_and_0x80 _).1 hc
  rw [toByte_val, or_0x80_mod] at this
  omega

theorem readVarint32_writeVarint32 (v : Nat) (hv : v < 2 ^ 32) :
    readVarint32 (writeVarint32 v) 0 = ⟨some v, (writeVarint32 v).length⟩ := by
  have hpos := writeVarint32_length_pos v
  have hle : (writeVarint32 v).length ≤ 4 + 1 :=
    writeVarint32_length_le 4 v (lt_of_lt_of_le hv (by norm_num))
  have hk : (writeVarint32 v).length - 1 < (writeVarint32 v).length := by omega
  have hterm : (writeVarint32 v)[(writeVarint32 v).length - 1].val &&& 0x80 = 0 := by
    obtain ⟨b, hb1, hb2⟩ := writeVarint32_last_clear v ((writeVarint32 v).length - 1) (by omega)
    rw [List.getElem?_eq_getElem hk] at hb1
    rw [Option.some.inj hb1]; exact hb2
  have hcont : ∀ i (hi : i < (writeVarint32 v).length - 1),
      (writeVarint32 v)[i].val &&& 0x80 ≠ 0 := by
    intro i hi
    obtain ⟨b, hb1, hb2⟩ := writeVarint32_cont_set v i (by omega)
    rw [List.getElem?_eq_getElem (by omega)] at hb1
    rw [Option.some.inj hb1]; exact hb2
  have h := readVarint32_terminated (writeVarint32 v) ((writeVarint32 v).length - 1) hk
    (by omega) hterm hcont
  have e : (writeVarint32 v).length - 1 + 1 = (writeVarint32 v).length := by omega
  rw [e, writeVarint32_payload, Nat.mod_eq_of_lt hv] at h
  exact h
theorem writeVarint64_payload (v : Nat) :
    payload (writeVarint64 v) (writeVarint64 v).length = v := by
  induction v using Nat.strong_induction_on with
  | _ v ih =>
    by_cases h : v < 0x80
    · rw [writeVarint64_lt v h]
      simp only [List.length_singleton]
      rw [payload_cons, and_0x7F, toByte_val]
      simp only [payload, Finset.range_zero, Finset.sum_empty]
      omega
    · rw [writeVarint64_ge v (by omega)]
      simp only [List.length_cons]
      rw [payload_cons, ih _ (shiftRight_seven_lt v (by omega)), and_0x7F, toByte_val,
        or_0x80_mod, Nat.shiftRight_eq_div_pow]
      omega

theorem writeVarint64_last_clear (v : Nat) (k : Nat) (hk : k + 1 = (writeVarint64 v).length) :
    ∃ b, (writeVarint64 v)[k]? = some b ∧ b.val &&& 0x80 = 0 := by
  obtain ⟨h1, h2⟩ := writeVarint64_getElem_last k v hk
  refine ⟨_, h1, (byte_and_0x80 _).2 ?_⟩
  rw [toByte_val]
  generalize v >>> (7 * k) = x at h2 ⊢
  omega

theorem writeVarint64_cont_set (v : Nat) (i : Nat) (hi : i + 1 < (writeVarint64 v).length) :
    ∃ b, (writeVarint64 v)[i]? = some b ∧ b.val &&& 0x80 ≠ 0 := by
  refine ⟨_, writeVarint64_getElem_cont i v hi, fun hc => ?_⟩
  have := (byte_and_0x80 _).1 hc
  rw [toByte_val, or_0x80_mod] at this
  omega

theorem readVarint64_writeVarint64 (v : Nat) (hv : v < 2 ^ 64) :
    readVarint64 (writeVarint64 v) 0 = ⟨some v, (writeVarint64 v).length⟩ := by
  have hpos := writeVarint64_length_pos v
  have hle : (writeVarint64 v).length ≤ 9 + 1 :=
    writeVarint64_length_le 9 v (lt_of_lt_of_le hv (by norm_num))
  have hk : (writeVarint64 v).length - 1 < (writeVarint64 v).length := by omega
  have hterm : (writeVarint64 v)[(writeVarint64 v).length - 1].val &&& 0x80 = 0 := by
    obtain ⟨b, hb1, hb2⟩ := writeVarint64_last_clear v ((writeVarint64 v).length - 1) (by omega)
    rw [List.getElem?_eq_getElem hk] at hb1
    rw [Option.some.inj hb1]; exact hb2
  have hcont : ∀ i (hi : i < (writeVarint64 v).length - 1),
      (writeVarint64 v)[i].val &&& 0x80 ≠ 0 := by
    intro i hi
    obtain ⟨b, hb1, hb2⟩ := writeVarint64_cont_set v i (by omega)
    rw [List.getElem?_eq_getElem (by omega)] at hb1
    rw [Option.some.inj hb1]; exact hb2
  have h := readVarint64_terminated (writeVarint64 v) ((writeVarint64 v).length - 1) hk
    (by omega) hterm hcont
  have e : (writeVarint64 v).length - 1 + 1 = (writeVarint64 v).length := by omega
  rw [e, writeVarint64_payload, Nat.mod_eq_of_lt hv] at h
  exact h


/-! ## Signed codec as a composition -/

theorem writeSint32_eq (n : Int) : writeSint32 n = writeVarint32 (zigZagEncode32 n) := by
  unfold writeSint32
  by_cases h : zigZagEncode32 n < 0x80
  · simp only [h, if_true, writeVarint32_lt _ h]
  · simp only [h, if_false]

theorem readSint32_eq (bs : List Byte) (ptr : Nat) :
    readSint32 bs ptr =
      ⟨(readVarint32 bs ptr).out.map zigZagDecode32, (readVarint32 bs ptr).ptr⟩ := by
  by_cases h : ptr ≥ bs.length
  · simp [readSint32, readVarint32, h]
  · have hlt : ptr < bs.length := by omega
    by_cases hb : bs[ptr].val &&& 0x80 = 0
    · simp [readSint32, readVarint32, h, hb]
    · have e : readSint32 bs ptr =
          match (readVarint32 bs ptr).out with
          | none => ⟨none, (readVarint32 bs ptr).ptr⟩
          | some raw => ⟨some (zigZagDecode32 raw), (readVarint32 bs ptr).ptr⟩ := by
        rw [readSint32, dif_neg h]
        simp only [hb, if_false, Nat.add_sub_cancel]
      rw [e]
      cases (readVarint32 bs ptr).out <;> rfl

theorem readSint32_writeSint32 (n : Int) (h : IsInt32 n) :
    readSint32 (writeSint32 n) 0 = ⟨some n, (writeSint32 n).length⟩ := by
  rw [readSint32_eq, writeSint32_eq, readVarint32_writeVarint32 _ (zigZagEncode32_lt n h)]
  simp [zigZagDecode32_encode32 n h]
theorem writeSint64_eq (n : Int) : writeSint64 n = writeVarint64 (zigZagEncode64 n) := by
  unfold writeSint64
  by_cases h : zigZagEncode64 n < 0x80
  · simp only [h, if_true, writeVarint64_lt _ h]
  · simp only [h, if_false]

theorem readSint64_eq (bs : List Byte) (ptr : Nat) :
    readSint64 bs ptr =
      ⟨(readVarint64 bs ptr).out.map zigZagDecode64, (readVarint64 bs ptr).ptr⟩ := by
  by_cases h : ptr ≥ bs.length
  · simp [readSint64, readVarint64, h]
  · have hlt : ptr < bs.length := by omega
    by_cases hb : bs[ptr].val &&& 0x80 = 0
    · simp [readSint64, readVarint64, h, hb]
    · have e : readSint64 bs ptr =
          match (readVarint64 bs ptr).out with
          | none => ⟨none, (readVarint64 bs ptr).ptr⟩
          | some raw => ⟨some (zigZagDecode64 raw), (readVarint64 bs ptr).ptr⟩ := by
        rw [readSint64, dif_neg h]
        simp only [hb, if_false, Nat.add_sub_cancel]
      rw [e]
      cases (readVarint64 bs ptr).out <;> rfl

theorem readSint64_writeSint64 (n : Int) (h : IsInt64 n) :
    readSint64 (writeSint64 n) 0 = ⟨some n, (writeSint64 n).length⟩ := by
  rw [readSint64_eq, writeSint64_eq, readVarint64_writeVarint64 _ (zigZagEncode64_lt n h)]
  simp [zigZagDecode64_encode64 n h]


/-! ## Length of the encoding -/

theorem bitsNeeded_le_seven (v : Nat) (h : v < 0x80) : 1 ≤ bitsNeeded v ∧ bitsNeeded v ≤ 7 := by
  unfold bitsNeeded
  by_cases h0 : v = 0
  · simp [h0]
  · have : v.log2 < 7 := (Nat.log2_lt h0).2 (by norm_num; omega)
    simp only [h0, if_false]
    omega

theorem bitsNeeded_shiftRight (v : Nat) (h : 0x80 ≤ v) :
    bitsNeeded v = bitsNeeded (v >>> 7) + 7 := by
  have hw : v >>> 7 = v / 128 := by rw [Nat.shiftRight_eq_div_pow]
  generalize v >>> 7 = w at hw ⊢
  have h0 : v ≠ 0 := by omega
  have h1 : w ≠ 0 := by omega
  unfold bitsNeeded
  simp only [h0, h1, if_false]
  have lo := Nat.log2_self_le h1
  have hi := (Nat.log2_lt h1).1 (Nat.lt_succ_self _)
  have e : v.log2 = w.log2 + 7 := by
    rw [@Nat.log2_eq_log_two v]
    apply Nat.log_eq_of_pow_le_of_lt_pow
    · rw [pow_add]
      generalize 2 ^ w.log2 = x at lo
      norm_num
      omega
    · rw [show w.log2 + 7 + 1 = (w.log2 + 1) + 7 by ring, pow_add]
      generalize 2 ^ (w.log2 + 1) = x at hi
      norm_num
      omega
  omega

theorem writeVarint32_length (v : Nat) : (writeVarint32 v).length = (bitsNeeded v + 6) / 7 := by
  induction v using Nat.strong_induction_on with
  | _ v ih =>
    by_cases h : v < 0x80
    · have := bitsNeeded_le_seven v h
      rw [writeVarint32_lt v h]
      simp only [List.length_singleton]
      omega
    · rw [writeVarint32_ge v (by omega), bitsNeeded_shiftRight v (by omega)]
      simp only [List.length_cons]
      rw [ih _ (shiftRight_seven_lt v (by omega))]
      omega

theorem writeVarint64_length (v : Nat) : (writeVarint64 v).length = (bitsNeeded v + 6) / 7 := by
  induction v using Nat.strong_induction_on with
  | _ v ih =>
    by_cases h : v < 0x80
    · have := bitsNeeded_le_seven v h
      rw [writeVarint64_lt v h]
      simp only [List.length_singleton]
      omega
    · rw [writeVarint64_ge v (by omega), bitsNeeded_shiftRight v (by omega)]
      simp only [List.length_cons]
      rw [ih _ (shiftRight_seven_lt v (by omega))]
      omega

theorem ceil_div_seven (b : Nat) : ⌈(b : ℚ) / 7⌉₊ = (b + 6) / 7 := by
  by_cases hb : b = 0
  · subst hb; simp
  · rw [Nat.ceil_eq_iff (by omega)]
    constructor
    · rw [lt_div_iff₀ (by norm_num)]
      have : ((b + 6) / 7 - 1) * 7 < b := by omega
      exact_mod_cast this
    · rw [div_le_iff₀ (by norm_num)]
      have : b ≤ ((b + 6) / 7) * 7 := by omega
      exact_mod_cast this


/-! ## Termination and capacity of the writers -/

theorem writeVarint32_loop_exit (out : List Byte) (v : Nat) :
    (writeVarint32.loop out v).2 < 0x80 := by
  induction v using Nat.strong_induction_on generalizing out with
  | _ v ih =>
    by_cases h : 0x80 ≤ v
    · rw [writeVarint32.loop, if_pos h]
      exact ih _ (shiftRight_seven_lt v h) _
    · rw [writeVarint32.loop, if_neg h]
      simpa using h

theorem writeVarint32_eq_loop (v : Nat) :
    writeVarint32 v =
      (writeVarint32.loop [] v).1 ++ [toByte (writeVarint32.loop [] v).2] := by
  by_cases h : v < 0x80
  · have h2 : ¬ 0x80 ≤ v := by omega
    rw [writeVarint32_lt v h, writeVarint32.loop, if_neg h2]
    simp
  · rw [writeVarint32, if_neg h]

theorem writeVarint32_capacity (v : Nat) (hv : v < 2 ^ 32) :
    (writeVarint32.loop [] v).2 < 0x80 ∧ (writeVarint32.loop [] v).1.length ≤ 4 ∧
      (writeVarint32 v).length ≤ 5 := by
  have hle : (writeVarint32 v).length ≤ 4 + 1 :=
    writeVarint32_length_le 4 v (lt_of_lt_of_le hv (by norm_num))
  refine ⟨writeVarint32_loop_exit [] v, ?_, hle⟩
  rw [writeVarint32_eq_loop] at hle
  simpa using hle
theorem writeVarint64_loop_exit (out : List Byte) (v : Nat) :
    (writeVarint64.loop out v).2 < 0x80 := by
  induction v using Nat.strong_induction_on generalizing out with
  | _ v ih =>
    by_cases h : 0x80 ≤ v
    · rw [writeVarint64.loop, if_pos h]
      exact ih _ (shiftRight_seven_lt v h) _
    · rw [writeVarint64.loop, if_neg h]
      simpa using h

theorem writeVarint64_eq_loop (v : Nat) :
    writeVarint64 v =
      (writeVarint64.loop [] v).1 ++ [toByte (writeVarint64.loop [] v).2] := by
  by_cases h : v < 0x80
  · have h2 : ¬ 0x80 ≤ v := by omega
    rw [writeVarint64_lt v h, writeVarint64.loop, if_neg h2]
    simp
  · rw [writeVarint64, if_neg h]

theorem writeVarint64_capacity (v : Nat) (hv : v < 2 ^ 64) :
    (writeVarint64.loop [] v).2 < 0x80 ∧ (writeVarint64.loop [] v).1.length ≤ 9 ∧
      (writeVarint64 v).length ≤ 10 := by
  have hle : (writeVarint64 v).length ≤ 9 + 1 :=
    writeVarint64_length_le 9 v (lt_of_lt_of_le hv (by norm_num))
  refine ⟨writeVarint64_loop_exit [] v, ?_, hle⟩
  rw [writeVarint64_eq_loop] at hle
  simpa using hle


/-! ## Wire format of the writers -/

theorem toByte_or_0x80_val (x : Nat) : (toByte (x ||| 0x80)).val = (x &&& 0x7F) ||| 0x80 := by
  rw [toByte_val, or_0x80_mod, and_0x7F, Nat.or_comm]
  have e := Nat.mul_add_lt_is_or (Nat.mod_lt x (show 0 < 2 ^ 7 by decide)) 1
  norm_num at e
  omega

theorem bitsNeeded_spec (v : Nat) (h : 0 < v) :
    2 ^ (bitsNeeded v - 1) ≤ v ∧ v < 2 ^ bitsNeeded v := by
  have h0 : v ≠ 0 := by omega
  unfold bitsNeeded
  simp only [h0, if_false, Nat.add_sub_cancel]
  exact ⟨Nat.log2_self_le h0, (Nat.log2_lt h0).1 (Nat.lt_succ_self _)⟩

theorem writeVarint32_wire (v : Nat) :
    1 ≤ (writeVarint32 v).length ∧
    (∀ i, i + 1 < (writeVarint32 v).length →
      ((writeVarint32 v)[i]?).map Fin.val = some (((v >>> (7 * i)) &&& 0x7F) ||| 0x80)) ∧
    ((writeVarint32 v)[(writeVarint32 v).length - 1]?).map Fin.val =
      some (v >>> (7 * ((writeVarint32 v).length - 1))) ∧
    v >>> (7 * ((writeVarint32 v).length - 1)) < 0x80 := by
  have hpos := writeVarint32_length_pos v
  refine ⟨hpos, fun i hi => ?_, ?_⟩
  · rw [writeVarint32_getElem_cont i v hi, Option.map_some', toByte_or_0x80_val]
  · obtain ⟨h1, h2⟩ :=
      writeVarint32_getElem_last ((writeVarint32 v).length - 1) v (by omega)
    refine ⟨?_, h2⟩
    rw [h1, Option.map_some', toByte_val]
    generalize v >>> (7 * ((writeVarint32 v).length - 1)) = x at h2 ⊢
    congr 1
    omega
theorem writeVarint64_wire (v : Nat) :
    1 ≤ (writeVarint64 v).length ∧
    (∀ i, i + 1 < (writeVarint64 v).length →
      ((writeVarint64 v)[i]?).map Fin.val = some (((v >>> (7 * i)) &&& 0x7F) ||| 0x80)) ∧
    ((writeVarint64 v)[(writeVarint64 v).length - 1]?).map Fin.val =
      some (v >>> (7 * ((writeVarint64 v).length - 1))) ∧
    v >>> (7 * ((writeVarint64 v).length - 1)) < 0x80 := by
  have hpos := writeVarint64_length_pos v
  refine ⟨hpos, fun i hi => ?_, ?_⟩
  · rw [writeVarint64_getElem_cont i v hi, Option.map_some', toByte_or_0x80_val]
  · obtain ⟨h1, h2⟩ :=
      writeVarint64_getElem_last ((writeVarint64 v).length - 1) v (by omega)
    refine ⟨?_, h2⟩
    rw [h1, Option.map_some', toByte_val]
    generalize v >>> (7 * ((writeVarint64 v).length - 1)) = x at h2 ⊢
    congr 1
    omega

/-! ## Reader, stated on the bytes of the view -/

theorem readVarint32_value (bs : List Byte) (k : Nat) (hk : k < min bs.length 5)
    (hterm : (bs.getD k 0).val &&& 0x80 = 0)
    (hcont : ∀ i, i < k → (bs.getD i 0).val &&& 0x80 ≠ 0) :
    readVarint32 bs 0 = ⟨some (payload bs (k + 1) % 2 ^ 32), k + 1⟩ := by
  have hkl : k < bs.length := lt_of_lt_of_le hk (min_le_left _ _)
  have hk5 : k < 5 := lt_of_lt_of_le hk (min_le_right _ _)
  rw [List.getD_eq_getElem bs 0 hkl] at hterm
  refine readVarint32_terminated bs k hkl hk5 hterm (fun i hi => ?_)
  have := hcont i hi
  rwa [List.getD_eq_getElem bs 0 (by omega)] at this

theorem readVarint64_value (bs : List Byte) (k : Nat) (hk : k < min bs.length 10)
    (hterm : (bs.getD k 0).val &&& 0x80 = 0)
    (hcont : ∀ i, i < k → (bs.getD i 0).val &&& 0x80 ≠ 0) :
    readVarint64 bs 0 = ⟨some (payload bs (k + 1) % 2 ^ 64), k + 1⟩ := by
  have hkl : k < bs.length := lt_of_lt_of_le hk (min_le_left _ _)
  have hk5 : k < 10 := lt_of_lt_of_le hk (min_le_right _ _)
  rw [List.getD_eq_getElem bs 0 hkl] at hterm
  refine readVarint64_terminated bs k hkl hk5 hterm (fun i hi => ?_)
  have := hcont i hi
  rwa [List.getD_eq_getElem bs 0 (by omega)] at this

/-! ## Readers: failure, and the two cases of a read -/

theorem readVarint32_loop_fail (bs : List Byte)
    (hall : ∀ i, i < min bs.length 5 → (bs.getD i 0).val &&& 0x80 ≠ 0) (d : Nat) :
    ∀ p r, 1 ≤ p → p + d = min bs.length 5 →
      readVarint32.loop bs p (7 * p) r = ⟨none, min bs.length 5⟩ := by
  induction d with
  | zero =>
    intro p r _ hp
    have hc : ¬ (p < bs.length ∧ 7 * p < 7 * 5) := by
      intro h; have := Nat.lt_min.2 ⟨h.1, (by omega : p < 5)⟩; omega
    rw [readVarint32.loop, dif_neg hc, ← hp, Nat.add_zero]
  | succ d ih =>
    intro p r hp1 hp
    have hlt : p < min bs.length 5 := by omega
    have hpl : p < bs.length := lt_of_lt_of_le hlt (min_le_left _ _)
    have hc : p < bs.length ∧ 7 * p < 7 * 5 :=
      ⟨hpl, by have := lt_of_lt_of_le hlt (min_le_right _ _); omega⟩
    have hb := hall p hlt
    rw [List.getD_eq_getElem bs 0 hpl] at hb
    rw [readVarint32.loop, dif_pos hc]
    simp only [hb, if_false]
    have e : 7 * p + 7 = 7 * (p + 1) := by ring
    rw [e]
    exact ih (p + 1) _ (by omega) (by omega)

theorem readVarint32_fail (bs : List Byte)
    (hall : ∀ i, i < min bs.length 5 → (bs.getD i 0).val &&& 0x80 ≠ 0) :
    readVarint32 bs 0 = ⟨none, min bs.length 5⟩ := by
  by_cases h0 : 0 ≥ bs.length
  · have e : min bs.length 5 = 0 := by omega
    rw [readVarint32, dif_pos h0, e]
  · have hpl : 0 < bs.length := by omega
    have hb := hall 0 (Nat.lt_min.2 ⟨hpl, by decide⟩)
    rw [List.getD_eq_getElem bs 0 hpl] at hb
    rw [readVarint32, dif_neg h0]
    simp only [hb, if_false]
    have h1 : 1 ≤ min bs.length 5 := Nat.le_min.2 ⟨hpl, by decide⟩
    exact readVarint32_loop_fail bs hall (min bs.length 5 - 1) 1 _ (by omega) (by omega)

theorem readVarint64_loop_fail (bs : List Byte)
    (hall : ∀ i, i < min bs.length 10 → (bs.getD i 0).val &&& 0x80 ≠ 0) (d : Nat) :
    ∀ p r, 1 ≤ p → p + d = min bs.length 10 →
      readVarint64.loop bs p (7 * p) r = ⟨none, min bs.length 10⟩ := by
  induction d with
  | zero =>
    intro p r _ hp
    have hc : ¬ (p < bs.length ∧ 7 * p < 7 * 10) := by
      intro h; have := Nat.lt_min.2 ⟨h.1, (by omega : p < 10)⟩; omega
    rw [readVarint64.loop, dif_neg hc, ← hp, Nat.add_zero]
  | succ d ih =>
    intro p r hp1 hp
    have hlt : p < min bs.length 10 := by omega
    have hpl : p < bs.length := lt_of_lt_of_le hlt (min_le_left _ _)
    have hc : p < bs.length ∧ 7 * p < 7 * 10 :=
      ⟨hpl, by have := lt_of_lt_of_le hlt (min_le_right _ _); omega⟩
    have hb := hall p hlt
    rw [List.getD_eq_getElem bs 0 hpl] at hb
    rw [readVarint64.loop, dif_pos hc]
    simp only [hb, if_false]
    have e : 7 * p + 7 = 7 * (p + 1) := by ring
    rw [e]
    exact ih (p + 1) _ (by omega) (by omega)

theorem readVarint64_fail (bs : List Byte)
    (hall : ∀ i, i < min bs.length 10 → (bs.getD i 0).val &&& 0x80 ≠ 0) :
    readVarint64 bs 0 = ⟨none, min bs.length 10⟩ := by
  by_cases h0 : 0 ≥ bs.length
  · have e : min bs.length 10 = 0 := by omega
    rw [readVarint64, dif_pos h0, e]
  · have hpl : 0 < bs.length := by omega
    have hb := hall 0 (Nat.lt_min.2 ⟨hpl, by decide⟩)
    rw [List.getD_eq_getElem bs 0 hpl] at hb
    rw [readVarint64, dif_neg h0]
    simp only [hb, if_false]
    have h1 : 1 ≤ min bs.length 10 := Nat.le_min.2 ⟨hpl, by decide⟩
    exact readVarint64_loop_fail bs hall (min bs.length 10 - 1) 1 _ (by omega) (by omega)

theorem first_clear_or_all_set (bs : List Byte) (g : Nat) :
    (∃ k, k < min bs.length g ∧ (bs.getD k 0).val &&& 0x80 = 0 ∧
      ∀ i, i < k → (bs.getD i 0).val &&& 0x80 ≠ 0) ∨
    (∀ i, i < min bs.length g → (bs.getD i 0).val &&& 0x80 ≠ 0) := by
  by_cases h : ∃ k, k < min bs.length g ∧ (bs.getD k 0).val &&& 0x80 = 0
  · left
    refine ⟨Nat.find h, (Nat.find_spec h).1, (Nat.find_spec h).2, fun i hi hc => ?_⟩
    exact Nat.find_min h hi ⟨lt_trans hi (Nat.find_spec h).1, hc⟩
  · right
    intro i hi hc
    exact h ⟨i, hi, hc⟩

theorem readVarint32_cases (bs : List Byte) :
    (∃ k, k < min bs.length 5 ∧ (bs.getD k 0).val &&& 0x80 = 0 ∧
      (∀ i, i < k → (bs.getD i 0).val &&& 0x80 ≠ 0) ∧
      readVarint32 bs 0 = ⟨some (payload bs (k + 1) % 2 ^ 32), k + 1⟩) ∨
    ((∀ i, i < min bs.length 5 → (bs.getD i 0).val &&& 0x80 ≠ 0) ∧
      readVarint32 bs 0 = ⟨none, min bs.length 5⟩) := by
  rcases first_clear_or_all_set bs 5 with ⟨k, hk, hterm, hcont⟩ | hall
  · exact Or.inl ⟨k, hk, hterm, hcont, readVarint32_value bs k hk hterm hcont⟩
  · exact Or.inr ⟨hall, readVarint32_fail bs hall⟩

theorem readVarint64_cases (bs : List Byte) :
    (∃ k, k < min bs.length 10 ∧ (bs.getD k 0).val &&& 0x80 = 0 ∧
      (∀ i, i < k → (bs.getD i 0).val &&& 0x80 ≠ 0) ∧
      readVarint64 bs 0 = ⟨some (payload bs (k + 1) % 2 ^ 64), k + 1⟩) ∨
    ((∀ i, i < min bs.length 10 → (bs.getD i 0).val &&& 0x80 ≠ 0) ∧
      readVarint64 bs 0 = ⟨none, min bs.length 10⟩) := by
  rcases first_clear_or_all_set bs 10 with ⟨k, hk, hterm, hcont⟩ | hall
  · exact Or.inl ⟨k, hk, hterm, hcont, readVarint64_value bs k hk hterm hcont⟩
  · exact Or.inr ⟨hall, readVarint64_fail bs hall⟩


/-! ## Readers: starting anywhere in the view -/

theorem readVarint32_loop_drop (bs : List Byte) (p : Nat) (d : Nat) :
    ∀ q s r, 7 * 5 - s ≤ d →
      readVarint32.loop bs (p + q) s r =
        ⟨(readVarint32.loop (bs.drop p) q s r).out,
          p + (readVarint32.loop (bs.drop p) q s r).ptr⟩ := by
  induction d with
  | zero =>
    intro q s r hs
    have hc1 : ¬ (p + q < bs.length ∧ s < 7 * 5) := by omega
    have hc2 : ¬ (q < (bs.drop p).length ∧ s < 7 * 5) := by omega
    rw [readVarint32.loop, dif_neg hc1, readVarint32.loop, dif_neg hc2]
  | succ d ih =>
    intro q s r hs
    by_cases hc1 : p + q < bs.length ∧ s < 7 * 5
    · have hc2 : q < (bs.drop p).length ∧ s < 7 * 5 := by
        rw [List.length_drop]; omega
      have hb : (bs.drop p)[q] = bs[p + q] := by rw [List.getElem_drop]
      rw [readVarint32.loop, dif_pos hc1, readVarint32.loop, dif_pos hc2]
      simp only [hb]
      by_cases hbit : bs[p + q].val &&& 0x80 = 0
      · simp only [hbit, if_true]; rfl
      · simp only [hbit, if_false]
        exact ih (q + 1) (s + 7) _ (by omega)
    · have hc2 : ¬ (q < (bs.drop p).length ∧ s < 7 * 5) := by
        rw [List.length_drop]; omega
      rw [readVarint32.loop, dif_neg hc1, readVarint32.loop, dif_neg hc2]

theorem readVarint32_drop (bs : List Byte) (p : Nat) :
    readVarint32 bs p =
      ⟨(readVarint32 (bs.drop p) 0).out, p + (readVarint32 (bs.drop p) 0).ptr⟩ := by
  by_cases h : p ≥ bs.length
  · have h2 : 0 ≥ (bs.drop p).length := by rw [List.length_drop]; omega
    rw [readVarint32, dif_pos h, readVarint32, dif_pos h2]
    rfl
  · have h2 : ¬ 0 ≥ (bs.drop p).length := by rw [List.length_drop]; omega
    have h3 : 0 < (bs.drop p).length := by omega
    have hb : (bs.drop p)[0] = bs[p] := by rw [List.getElem_drop]; rfl
    rw [readVarint32, dif_neg h, readVarint32, dif_neg h2]
    simp only [hb]
    by_cases hbit : bs[p].val &&& 0x80 = 0
    · simp only [hbit, if_true]
    · simp only [hbit, if_false]
      exact readVarint32_loop_drop bs p (7 * 5) 1 7 _ (by omega)
theorem readVarint64_loop_drop (bs : List Byte) (p : Nat) (d : Nat) :
    ∀ q s r, 7 * 10 - s ≤ d →
      readVarint64.loop bs (p + q) s r =
        ⟨(readVarint64.loop (bs.drop p) q s r).out,
          p + (readVarint64.loop (bs.drop p) q s r).ptr⟩ := by
  induction d with
  | zero =>
    intro q s r hs
    have hc1 : ¬ (p + q < bs.length ∧ s < 7 * 10) := by omega
    have hc2 : ¬ (q < (bs.drop p).length ∧ s < 7 * 10) := by omega
    rw [readVarint64.loop, dif_neg hc1, readVarint64.loop, dif_neg hc2]
  | succ d ih =>
    intro q s r hs
    by_cases hc1 : p + q < bs.length ∧ s < 7 * 10
    · have hc2 : q < (bs.drop p).length ∧ s < 7 * 10 := by
        rw [List.length_drop]; omega
      have hb : (bs.drop p)[q] = bs[p + q] := by rw [List.getElem_drop]
      rw [readVarint64.loop, dif_pos hc1, readVarint64.loop, dif_pos hc2]
      simp only [hb]
      by_cases hbit : bs[p + q].val &&& 0x80 = 0
      · simp only [hbit, if_true]; rfl
      · simp only [hbit, if_false]
        exact ih (q + 1) (s + 7) _ (by omega)
    · have hc2 : ¬ (q < (bs.drop p).length ∧ s < 7 * 10) := by
        rw [List.length_drop]; omega
      rw [readVarint64.loop, dif_neg hc1, readVarint64.loop, dif_neg hc2]

theorem readVarint64_drop (bs : List Byte) (p : Nat) :
    readVarint64 bs p =
      ⟨(readVarint64 (bs.drop p) 0).out, p + (readVarint64 (bs.drop p) 0).ptr⟩ := by
  by_cases h : p ≥ bs.length
  · have h2 : 0 ≥ (bs.drop p).length := by rw [List.length_drop]; omega
    rw [readVarint64, dif_pos h, readVarint64, dif_pos h2]
    rfl
  · have h2 : ¬ 0 ≥ (bs.drop p).length := by rw [List.length_drop]; omega
    have h3 : 0 < (bs.drop p).length := by omega
    have hb : (bs.drop p)[0] = bs[p] := by rw [List.getElem_drop]; rfl
    rw [readVarint64, dif_neg h, readVarint64, dif_neg h2]
    simp only [hb]
    by_cases hbit : bs[p].val &&& 0x80 = 0
    · simp only [hbit, if_true]
    · simp only [hbit, if_false]
      exact readVarint64_loop_drop bs p (7 * 10) 1 7 _ (by omega)

/-! ## Readers: what a successful read says about the bytes -/

theorem readVarint32_success_inv (bs : List Byte) (v m : Nat)
    (h : readVarint32 bs 0 = ⟨some v, m⟩) :
    1 ≤ m ∧ m ≤ min bs.length 5 ∧ (bs.getD (m - 1) 0).val &&& 0x80 = 0 ∧
      (∀ i, i < m - 1 → (bs.getD i 0).val &&& 0x80 ≠ 0) ∧ v = payload bs m % 2 ^ 32 := by
  rcases readVarint32_cases bs with ⟨k, hk, hterm, hcont, hr⟩ | ⟨_, hr⟩
  · rw [hr] at h
    injection h with h1 h2
    injection h1 with h1
    subst h2
    exact ⟨by omega, by omega, by simpa using hterm, by simpa using hcont, h1.symm⟩
  · rw [hr] at h
    injection h with h1 h2
    exact absurd h1 (by simp)

theorem readVarint32_fail_iff (bs : List Byte) :
    (readVarint32 bs 0).out = none ↔
      ∀ i, i < min bs.length 5 → (bs.getD i 0).val &&& 0x80 ≠ 0 := by
  constructor
  · intro h
    rcases readVarint32_cases bs with ⟨k, _, _, _, hr⟩ | ⟨hall, _⟩
    · rw [hr] at h; exact absurd h (by simp)
    · exact hall
  · intro hall
    rw [readVarint32_fail bs hall]
theorem readVarint64_success_inv (bs : List Byte) (v m : Nat)
    (h : readVarint64 bs 0 = ⟨some v, m⟩) :
    1 ≤ m ∧ m ≤ min bs.length 10 ∧ (bs.getD (m - 1) 0).val &&& 0x80 = 0 ∧
      (∀ i, i < m - 1 → (bs.getD i 0).val &&& 0x80 ≠ 0) ∧ v = payload bs m % 2 ^ 64 := by
  rcases readVarint64_cases bs with ⟨k, hk, hterm, hcont, hr⟩ | ⟨_, hr⟩
  · rw [hr] at h
    injection h with h1 h2
    injection h1 with h1
    subst h2
    exact ⟨by omega, by omega, by simpa using hterm, by simpa using hcont, h1.symm⟩
  · rw [hr] at h
    injection h with h1 h2
    exact absurd h1 (by simp)

theorem readVarint64_fail_iff (bs : List Byte) :
    (readVarint64 bs 0).out = none ↔
      ∀ i, i < min bs.length 10 → (bs.getD i 0).val &&& 0x80 ≠ 0 := by
  constructor
  · intro h
    rcases readVarint64_cases bs with ⟨k, _, _, _, hr⟩ | ⟨hall, _⟩
    · rw [hr] at h; exact absurd h (by simp)
    · exact hall
  · intro hall
    rw [readVarint64_fail bs hall]

theorem payload_congr (bs bs2 : List Byte) (k : Nat)
    (h : ∀ i, i < k → bs2.getD i 0 = bs.getD i 0) : payload bs2 k = payload bs k := by
  unfold payload
  apply Finset.sum_congr rfl
  intro i hi
  rw [h i (Finset.mem_range.1 hi)]

theorem getD_of_take_eq (bs bs2 : List Byte) (k : Nat) (h : bs2.take k = bs.take k) :
    ∀ i, i < k → bs2.getD i 0 = bs.getD i 0 := by
  intro i hi
  have e1 : (bs2.take k).getD i 0 = bs2.getD i 0 := by
    simp [List.getD_eq_getElem?_getD, List.getElem?_take, hi]
  have e2 : (bs.take k).getD i 0 = bs.getD i 0 := by
    simp [List.getD_eq_getElem?_getD, List.getElem?_take, hi]
  rw [← e1, ← e2, h]

theorem length_ge_of_take_eq (bs bs2 : List Byte) (k : Nat) (h : bs2.take k = bs.take k)
    (hk : k ≤ bs.length) : k ≤ bs2.length := by
  have e := congrArg List.length h
  rw [List.length_take, List.length_take] at e
  omega

theorem readVarint32_of_take_eq (bs bs2 : List Byte) (v k : Nat)
    (h : readVarint32 bs 0 = ⟨some v, k⟩) (hpre : bs2.take k = bs.take k) :
    readVarint32 bs2 0 = ⟨some v, k⟩ := by
  obtain ⟨h1, h2, hterm, hcont, hv⟩ := readVarint32_success_inv bs v k h
  have hkl : k ≤ bs.length := le_trans h2 (min_le_left _ _)
  have hk5 : k ≤ 5 := le_trans h2 (min_le_right _ _)
  have hl2 := length_ge_of_take_eq bs bs2 k hpre hkl
  have hg := getD_of_take_eq bs bs2 k hpre
  have hr := readVarint32_value bs2 (k - 1) (Nat.lt_min.2 ⟨by omega, by omega⟩)
    (by rw [hg _ (by omega)]; exact hterm)
    (fun i hi => by rw [hg _ (by omega)]; exact hcont i hi)
  have e : k - 1 + 1 = k := by omega
  rw [e, payload_congr bs bs2 k hg, ← hv] at hr
  exact hr

theorem readSint32_of_take_eq (bs bs2 : List Byte) (n : Int) (k : Nat)
    (h : readSint32 bs 0 = ⟨some n, k⟩) (hpre : bs2.take k = bs.take k) :
    readSint32 bs2 0 = ⟨some n, k⟩ := by
  rw [readSint32_eq] at h ⊢
  injection h with h1 h2
  cases hout : (readVarint32 bs 0).out with
  | none => rw [hout] at h1; exact absurd h1 (by simp)
  | some raw =>
    rw [hout] at h1
    have hr : readVarint32 bs 0 = ⟨some raw, k⟩ := by
      cases hrr : readVarint32 bs 0 with
      | mk o p => rw [hrr] at hout h2; simp only at hout h2; rw [hout, h2]
    rw [readVarint32_of_take_eq bs bs2 raw k hr hpre]
    simpa using h1

theorem readVarint32_append (v : Nat) (hv : v < 2 ^ 32) (rest : List Byte) :
    readVarint32 (writeVarint32 v ++ rest) 0 = ⟨some v, (writeVarint32 v).length⟩ := by
  apply readVarint32_of_take_eq (writeVarint32 v) _ v _ (readVarint32_writeVarint32 v hv)
  rw [List.take_left, List.take_length]

theorem readVarint32_at_append (pre bs : List Byte) :
    readVarint32 (pre ++ bs) pre.length =
      ⟨(readVarint32 bs 0).out, pre.length + (readVarint32 bs 0).ptr⟩ := by
  rw [readVarint32_drop, List.drop_left]

theorem readVarint32_min_length (bs : List Byte) (v m : Nat)
    (h : readVarint32 bs 0 = ⟨some v, m⟩) : (writeVarint32 v).length ≤ m := by
  obtain ⟨h1, _, _, _, hv⟩ := readVarint32_success_inv bs v m h
  have hlt : v < 2 ^ (7 * (m - 1 + 1)) := by
    have e : m - 1 + 1 = m := by omega
    rw [e, hv]
    exact lt_of_le_of_lt (Nat.mod_le _ _) (payload_lt bs m)
  have := writeVarint32_length_le (m - 1) v hlt
  omega

theorem writeVarint32_last_ne_zero (v : Nat) (h : 1 < (writeVarint32 v).length) :
    ∃ b, (writeVarint32 v)[(writeVarint32 v).length - 1]? = some b ∧ b.val ≠ 0 := by
  obtain ⟨h1, h2⟩ :=
    writeVarint32_getElem_last ((writeVarint32 v).length - 1) v (by omega)
  refine ⟨_, h1, fun hz => ?_⟩
  rw [toByte_val] at hz
  have hx : v >>> (7 * ((writeVarint32 v).length - 1)) = 0 := by
    generalize v >>> (7 * ((writeVarint32 v).length - 1)) = x at h2 hz
    omega
  rw [Nat.shiftRight_eq_div_pow] at hx
  have hlt : v < 2 ^ (7 * ((writeVarint32 v).length - 2 + 1)) := by
    have e : (writeVarint32 v).length - 2 + 1 = (writeVarint32 v).length - 1 := by omega
    rw [e]
    exact (Nat.div_eq_zero_iff (Nat.pow_pos (by decide))).1 hx
  have := writeVarint32_length_le _ v hlt
  omega
theorem readVarint64_of_take_eq (bs bs2 : List Byte) (v k : Nat)
    (h : readVarint64 bs 0 = ⟨some v, k⟩) (hpre : bs2.take k = bs.take k) :
    readVarint64 bs2 0 = ⟨some v, k⟩ := by
  obtain ⟨h1, h2, hterm, hcont, hv⟩ := readVarint64_success_inv bs v k h
  have hkl : k ≤ bs.length := le_trans h2 (min_le_left _ _)
  have hk5 : k ≤ 10 := le_trans h2 (min_le_right _ _)
  have hl2 := length_ge_of_take_eq bs bs2 k hpre hkl
  have hg := getD_of_take_eq bs bs2 k hpre
  have hr := readVarint64_value bs2 (k - 1) (Nat.lt_min.2 ⟨by omega, by omega⟩)
    (by rw [hg _ (by omega)]; exact hterm)
    (fun i hi => by rw [hg _ (by omega)]; exact hcont i hi)
  have e : k - 1 + 1 = k := by omega
  rw [e, payload_congr bs bs2 k hg, ← hv] at hr
  exact hr

theorem readSint64_of_take_eq (bs bs2 : List Byte) (n : Int) (k : Nat)
    (h : readSint64 bs 0 = ⟨some n, k⟩) (hpre : bs2.take k = bs.take k) :
    readSint64 bs2 0 = ⟨some n, k⟩ := by
  rw [readSint64_eq] at h ⊢
  injection h with h1 h2
  cases hout : (readVarint64 bs 0).out with
  | none => rw [hout] at h1; exact absurd h1 (by simp)
  | some raw =>
    rw [hout] at h1
    have hr : readVarint64 bs 0 = ⟨some raw, k⟩ := by
      cases hrr : readVarint64 bs 0 with
      | mk o p => rw [hrr] at hout h2; simp only at hout h2; rw [hout, h2]
    rw [readVarint64_of_take_eq bs bs2 raw k hr hpre]
    simpa using h1

theorem readVarint64_append (v : Nat) (hv : v < 2 ^ 64) (rest : List Byte) :
    readVarint64 (writeVarint64 v ++ rest) 0 = ⟨some v, (writeVarint64 v).length⟩ := by
  apply readVarint64_of_take_eq (writeVarint64 v) _ v _ (readVarint64_writeVarint64 v hv)
  rw [List.take_left, List.take_length]

theorem readVarint64_at_append (pre bs : List Byte) :
    readVarint64 (pre ++ bs) pre.length =
      ⟨(readVarint64 bs 0).out, pre.length + (readVarint64 bs 0).ptr⟩ := by
  rw [readVarint64_drop, List.drop_left]

theorem readVarint64_min_length (bs : List Byte) (v m : Nat)
    (h : readVarint64 bs 0 = ⟨some v, m⟩) : (writeVarint64 v).length ≤ m := by
  obtain ⟨h1, _, _, _, hv⟩ := readVarint64_success_inv bs v m h
  have hlt : v < 2 ^ (7 * (m - 1 + 1)) := by
    have e : m - 1 + 1 = m := by omega
    rw [e, hv]
    exact lt_of_le_of_lt (Nat.mod_le _ _) (payload_lt bs m)
  have := writeVarint64_length_le (m - 1) v hlt
  omega

theorem writeVarint64_last_ne_zero (v : Nat) (h : 1 < (writeVarint64 v).length) :
    ∃ b, (writeVarint64 v)[(writeVarint64 v).length - 1]? = some b ∧ b.val ≠ 0 := by
  obtain ⟨h1, h2⟩ :=
    writeVarint64_getElem_last ((writeVarint64 v).length - 1) v (by omega)
  refine ⟨_, h1, fun hz => ?_⟩
  rw [toByte_val] at hz
  have hx : v >>> (7 * ((writeVarint64 v).length - 1)) = 0 := by
    generalize v >>> (7 * ((writeVarint64 v).length - 1)) = x at h2 hz
    omega
  rw [Nat.shiftRight_eq_div_pow] at hx
  have hlt : v < 2 ^ (7 * ((writeVarint64 v).length - 2 + 1)) := by
    have e : (writeVarint64 v).length - 2 + 1 = (writeVarint64 v).length - 1 := by omega
    rw [e]
    exact (Nat.div_eq_zero_iff (Nat.pow_pos (by decide))).1 hx
  have := writeVarint64_length_le _ v hlt
  omega

/-! ## The two widths side by side -/

theorem readVarint64_of_readVarint32 (bs : List Byte) (v k : Nat)
    (h : readVarint32 bs 0 = ⟨some v, k⟩) :
    readVarint64 bs 0 = ⟨some (payload bs k), k⟩ ∧ payload bs k % 2 ^ 32 = v ∧
      (k ≤ 4 → payload bs k = v) := by
  obtain ⟨h1, h2, hterm, hcont, hv⟩ := readVarint32_success_inv bs v k h
  have hkl : k ≤ bs.length := le_trans h2 (min_le_left _ _)
  have hk5 : k ≤ 5 := le_trans h2 (min_le_right _ _)
  have hr := readVarint64_value bs (k - 1) (Nat.lt_min.2 ⟨by omega, by omega⟩) hterm hcont
  have e : k - 1 + 1 = k := by omega
  rw [e] at hr
  have hp := payload_lt bs k
  have h64 : payload bs k < 2 ^ 64 :=
    lt_of_lt_of_le hp (Nat.pow_le_pow_right (by decide) (by omega))
  rw [Nat.mod_eq_of_lt h64] at hr
  refine ⟨hr, hv.symm, fun hk4 => ?_⟩
  have h32 : payload bs k < 2 ^ 32 :=
    lt_of_lt_of_le hp (Nat.pow_le_pow_right (by decide) (by omega))
  rw [hv, Nat.mod_eq_of_lt h32]

theorem writeVarint64_eq_writeVarint32 (v : Nat) : writeVarint64 v = writeVarint32 v := by
  induction v using Nat.strong_induction_on with
  | _ v ih =>
    by_cases h : v < 0x80
    · rw [writeVarint64_lt v h, writeVarint32_lt v h]
    · rw [writeVarint64_ge v (by omega), writeVarint32_ge v (by omega),
        ih _ (shiftRight_seven_lt v (by omega))]

theorem zigZagEncode64_eq_zigZagEncode32 (n : Int) (h : IsInt32 n) :
    zigZagEncode64 n = zigZagEncode32 n := by
  have h64 : IsInt64 n := by
    obtain ⟨h0, h1⟩ := h
    exact ⟨by omega, by omega⟩
  have e1 := zigZagEncode32_eq n h
  have e2 := zigZagEncode64_eq n h64
  omega

/-! ## Uniqueness of the encoding among in-range byte sequences -/

theorem toByte_val_self (b : Byte) : toByte b.val = b := by
  apply Fin.ext
  rw [toByte_val]
  exact Nat.mod_eq_of_lt b.isLt

theorem byte_and_0x7F_of_set (b : Byte) (h : b.val &&& 0x80 ≠ 0) :
    (b.val &&& 0x7F) + 128 = b.val := by
  have h1 : ¬ b.val < 128 := fun hc => h ((byte_and_0x80 b).2 hc)
  have h2 := b.isLt
  rw [and_0x7F]
  omega

theorem writeVarint32_of_groups (bs : List Byte) :
    bs ≠ [] →
    (∀ i, i + 1 < bs.length → (bs.getD i 0).val &&& 0x80 ≠ 0) →
    (bs.getD (bs.length - 1) 0).val &&& 0x80 = 0 →
    (writeVarint32 (payload bs bs.length)).length = bs.length →
    writeVarint32 (payload bs bs.length) = bs := by
  induction bs with
  | nil => intro h; exact absurd rfl h
  | cons b rest ih =>
    intro _ hcont hterm hlen
    simp only [List.length_cons] at hcont hterm hlen ⊢
    rw [payload_cons] at hlen ⊢
    by_cases hr : rest = []
    · subst hr
      have hb : b.val < 128 := (byte_and_0x80 b).1 (by simpa using hterm)
      have e : (b.val &&& 0x7F) + 128 * payload [] ([] : List Byte).length = b.val := by
        rw [and_0x7F]
        simp only [payload, List.length_nil, Finset.range_zero, Finset.sum_empty]
        omega
      rw [e, writeVarint32_lt _ hb, toByte_val_self]
    · have hpos : 0 < rest.length := List.length_pos.2 hr
      have hset : b.val &&& 0x80 ≠ 0 := by
        have := hcont 0 (by omega)
        simpa using this
      have hb := byte_and_0x7F_of_set b hset
      have hg : b.val &&& 0x7F < 128 := by rw [and_0x7F]; omega
      generalize hP : payload rest rest.length = P at hlen ⊢
      have hv : 0x80 ≤ (b.val &&& 0x7F) + 128 * P := by
        by_contra hc
        rw [writeVarint32_lt _ (by omega)] at hlen
        simp only [List.length_singleton] at hlen
        omega
      have hs : ((b.val &&& 0x7F) + 128 * P) >>> 7 = P := by
        rw [Nat.shiftRight_eq_div_pow]
        norm_num
        omega
      have hh : toByte (((b.val &&& 0x7F) + 128 * P) ||| 0x80) = b := by
        apply Fin.ext
        rw [toByte_val, or_0x80_mod]
        omega
      rw [writeVarint32_ge _ hv, hs, hh] at hlen ⊢
      simp only [List.length_cons, Nat.add_right_cancel_iff] at hlen
      subst hP
      rw [ih hr (fun i hi => by have := hcont (i + 1) (by omega); simpa using this)
        (by
          have e : rest.length + 1 - 1 = (rest.length - 1) + 1 := by omega
          rw [e, List.getD_cons_succ] at hterm
          exact hterm)
        hlen]

theorem readVarint32_unique (bs : List Byte) (v : Nat)
    (h : readVarint32 bs 0 = ⟨some v, bs.length⟩)
    (hlen : bs.length = (writeVarint32 v).length)
    (hp : payload bs bs.length < 2 ^ 32) : bs = writeVarint32 v := by
  obtain ⟨h1, _, hterm, hcont, hv⟩ := readVarint32_success_inv bs v bs.length h
  rw [Nat.mod_eq_of_lt hp] at hv
  subst hv
  have hne : bs ≠ [] := by
    intro hc; rw [hc] at h1; simp at h1
  exact (writeVarint32_of_groups bs hne (fun i hi => hcont i (by omega)) hterm
    hlen.symm).symm
theorem writeVarint64_of_groups (bs : List Byte) :
    bs ≠ [] →
    (∀ i, i + 1 < bs.length → (bs.getD i 0).val &&& 0x80 ≠ 0) →
    (bs.getD (bs.length - 1) 0).val &&& 0x80 = 0 →
    (writeVarint64 (payload bs bs.length)).length = bs.length →
    writeVarint64 (payload bs bs.length) = bs := by
  induction bs with
  | nil => intro h; exact absurd rfl h
  | cons b rest ih =>
    intro _ hcont hterm hlen
    simp only [List.length_cons] at hcont hterm hlen ⊢
    rw [payload_cons] at hlen ⊢
    by_cases hr : rest = []
    · subst hr
      have hb : b.val < 128 := (byte_and_0x80 b).1 (by simpa using hterm)
      have e : (b.val &&& 0x7F) + 128 * payload [] ([] : List Byte).length = b.val := by
        rw [and_0x7F]
        simp only [payload, List.length_nil, Finset.range_zero, Finset.sum_empty]
        omega
      rw [e, writeVarint64_lt _ hb, toByte_val_self]
    · have hpos : 0 < rest.length := List.length_pos.2 hr
      have hset : b.val &&& 0x80 ≠ 0 := by
        have := hcont 0 (by omega)
        simpa using this
      have hb := byte_and_0x7F_of_set b hset
      have hg : b.val &&& 0x7F < 128 := by rw [and_0x7F]; omega
      generalize hP : payload rest rest.length = P at hlen ⊢
      have hv : 0x80 ≤ (b.val &&& 0x7F) + 128 * P := by
        by_contra hc
        rw [writeVarint64_lt _ (by omega)] at hlen
        simp only [List.length_singleton] at hlen
        omega
      have hs : ((b.val &&& 0x7F) + 128 * P) >>> 7 = P := by
        rw [Nat.shiftRight_eq_div_pow]
        norm_num
        omega
      have hh : toByte (((b.val &&& 0x7F) + 128 * P) ||| 0x80) = b := by
        apply Fin.ext
        rw [toByte_val, or_0x80_mod]
        omega
      rw [writeVarint64_ge _ hv, hs, hh] at hlen ⊢
      simp only [List.length_cons, Nat.add_right_cancel_iff] at hlen
      subst hP
      rw [ih hr (fun i hi => by have := hcont (i + 1) (by omega); simpa using this)
        (by
          have e : rest.length + 1 - 1 = (rest.length - 1) + 1 := by omega
          rw [e, List.getD_cons_succ] at hterm
          exact hterm)
        hlen]

theorem readVarint64_unique (bs : List Byte) (v : Nat)
    (h : readVarint64 bs 0 = ⟨some v, bs.length⟩)
    (hlen : bs.length = (writeVarint64 v).length)
    (hp : payload bs bs.length < 2 ^ 64) : bs = writeVarint64 v := by
  obtain ⟨h1, _, hterm, hcont, hv⟩ := readVarint64_success_inv bs v bs.length h
  rw [Nat.mod_eq_of_lt hp] at hv
  subst hv
  have hne : bs ≠ [] := by
    intro hc; rw [hc] at h1; simp at h1
  exact (writeVarint64_of_groups bs hne (fun i hi => hcont i (by omega)) hterm
    hlen.symm).symm

/-! ## Cursor bounds and dereferenced offsets -/

theorem readVarint32_ptr_bounds (bs : List Byte) (p : Nat) (hp : p ≤ bs.length) :
    p ≤ (readVarint32 bs p).ptr ∧ (readVarint32 bs p).ptr ≤ bs.length ∧
      ((readVarint32 bs p).out ≠ none → p < (readVarint32 bs p).ptr) := by
  rw [readVarint32_drop]
  have hl : (bs.drop p).length = bs.length - p := List.length_drop p bs
  rcases readVarint32_cases (bs.drop p) with ⟨k, hk, _, _, hr⟩ | ⟨_, hr⟩
  · rw [hr]
    have := lt_of_lt_of_le hk (min_le_left _ _)
    simp only
    omega
  · rw [hr]
    have := min_le_left (bs.drop p).length 5
    simp only
    exact ⟨by omega, by omega, fun hc => absurd rfl hc⟩

theorem readSint32_ptr_bounds (bs : List Byte) (p : Nat) (hp : p ≤ bs.length) :
    p ≤ (readSint32 bs p).ptr ∧ (readSint32 bs p).ptr ≤ bs.length ∧
      ((readSint32 bs p).out ≠ none → p < (readSint32 bs p).ptr) := by
  obtain ⟨h1, h2, h3⟩ := readVarint32_ptr_bounds bs p hp
  rw [readSint32_eq]
  refine ⟨h1, h2, fun hc => h3 (fun hn => hc ?_)⟩
  simp only [hn, Option.map_none']

theorem readVarint32_loopTraced_spec (bs : List Byte) (d : Nat) :
    ∀ p s r, 7 * 5 - s ≤ d →
      (readVarint32.loopTraced bs p s r).1 = readVarint32.loop bs p s r ∧
        ∀ i ∈ (readVarint32.loopTraced bs p s r).2, p ≤ i ∧ i < bs.length := by
  induction d with
  | zero =>
    intro p s r hs
    have hc : ¬ (p < bs.length ∧ s < 7 * 5) := by omega
    rw [readVarint32.loopTraced, if_neg hc, readVarint32.loop, dif_neg hc]
    exact ⟨rfl, fun i hi => absurd hi (List.not_mem_nil i)⟩
  | succ d ih =>
    intro p s r hs
    by_cases hc : p < bs.length ∧ s < 7 * 5
    · rw [readVarint32.loopTraced, if_pos hc, readVarint32.loop, dif_pos hc]
      simp only [List.getD_eq_getElem bs 0 hc.1]
      by_cases hbit : bs[p].val &&& 0x80 = 0
      · simp only [hbit, if_true, List.mem_singleton, true_and]
        intro i hi
        omega
      · simp only [hbit, if_false]
        obtain ⟨e1, e2⟩ := ih (p + 1) (s + 7)
          (r ||| (((bs[p].val &&& 0x7F) <<< s) % 2 ^ 32)) (by omega)
        refine ⟨e1, fun i hi => ?_⟩
        rcases List.mem_cons.1 hi with h | h
        · omega
        · have := e2 i h
          omega
    · rw [readVarint32.loopTraced, if_neg hc, readVarint32.loop, dif_neg hc]
      exact ⟨rfl, fun i hi => absurd hi (List.not_mem_nil i)⟩

theorem readVarint32Traced_spec (bs : List Byte) (p : Nat) :
    (readVarint32Traced bs p).1 = readVarint32 bs p ∧
      ∀ i ∈ (readVarint32Traced bs p).2, p ≤ i ∧ i < bs.length := by
  by_cases h : p ≥ bs.length
  · rw [readVarint32Traced, if_pos h, readVarint32, dif_pos h]
    exact ⟨rfl, fun i hi => absurd hi (List.not_mem_nil i)⟩
  · have hlt : p < bs.length := by omega
    rw [readVarint32Traced, if_neg h, readVarint32, dif_neg h]
    simp only [List.getD_eq_getElem bs 0 hlt]
    by_cases hbit : bs[p].val &&& 0x80 = 0
    · simp only [hbit, if_true, List.mem_singleton, true_and]
      intro i hi
      omega
    · simp only [hbit, if_false]
      obtain ⟨e1, e2⟩ := readVarint32_loopTraced_spec bs (7 * 5) (p + 1) 7
        (bs[p].val &&& 0x7F) (by omega)
      refine ⟨e1, fun i hi => ?_⟩
      rcases List.mem_cons.1 hi with h | h
      · omega
      · have := e2 i h
        omega

theorem readSint32Traced_spec (bs : List Byte) (p : Nat) :
    (readSint32Traced bs p).1 = readSint32 bs p ∧
      ∀ i ∈ (readSint32Traced bs p).2, p ≤ i ∧ i < bs.length := by
  by_cases h : p ≥ bs.length
  · rw [readSint32Traced, if_pos h, readSint32, dif_pos h]
    exact ⟨rfl, fun i hi => absurd hi (List.not_mem_nil i)⟩
  · have hlt : p < bs.length := by omega
    obtain ⟨e1, e2⟩ := readVarint32Traced_spec bs p
    rw [readSint32Traced, if_neg h, readSint32, dif_neg h]
    simp only [List.getD_eq_getElem bs 0 hlt, Nat.add_sub_cancel]
    by_cases hbit : bs[p].val &&& 0x80 = 0
    · simp only [hbit, if_true, List.mem_singleton, true_and]
      intro i hi
      omega
    · simp only [hbit, if_false, e1]
      have hmem : ∀ i ∈ p :: (readVarint32Traced bs p).2, p ≤ i ∧ i < bs.length := by
        intro i hi
        rcases List.mem_cons.1 hi with h | h
        · omega
        · exact e2 i h
      cases hout : (readVarint32 bs p).out with
      | none => exact ⟨rfl, hmem⟩
      | some raw => exact ⟨rfl, hmem⟩
theorem readVarint64_ptr_bounds (bs : List Byte) (p : Nat) (hp : p ≤ bs.length) :
    p ≤ (readVarint64 bs p).ptr ∧ (readVarint64 bs p).ptr ≤ bs.length ∧
      ((readVarint64 bs p).out ≠ none → p < (readVarint64 bs p).ptr) := by
  rw [readVarint64_drop]
  have hl : (bs.drop p).length = bs.length - p := List.length_drop p bs
  rcases readVarint64_cases (bs.drop p) with ⟨k, hk, _, _, hr⟩ | ⟨_, hr⟩
  · rw [hr]
    have := lt_of_lt_of_le hk (min_le_left _ _)
    simp only
    omega
  · rw [hr]
    have := min_le_left (bs.drop p).length 5
    simp only
    exact ⟨by omega, by omega, fun hc => absurd rfl hc⟩

theorem readSint64_ptr_bounds (bs : List Byte) (p : Nat) (hp : p ≤ bs.length) :
    p ≤ (readSint64 bs p).ptr ∧ (readSint64 bs p).ptr ≤ bs.length ∧
      ((readSint64 bs p).out ≠ none → p < (readSint64 bs p).ptr) := by
  obtain ⟨h1, h2, h3⟩ := readVarint64_ptr_bounds bs p hp
  rw [readSint64_eq]
  refine ⟨h1, h2, fun hc => h3 (fun hn => hc ?_)⟩
  simp only [hn, Option.map_none']

theorem readVarint64_loopTraced_spec (bs : List Byte) (d : Nat) :
    ∀ p s r, 7 * 10 - s ≤ d →
      (readVarint64.loopTraced bs p s r).1 = readVarint64.loop bs p s r ∧
        ∀ i ∈ (readVarint64.loopTraced bs p s r).2, p ≤ i ∧ i < bs.length := by
  induction d with
  | zero =>
    intro p s r hs
    have hc : ¬ (p < bs.length ∧ s < 7 * 10) := by omega
    rw [readVarint64.loopTraced, if_neg hc, readVarint64.loop, dif_neg hc]
    exact ⟨rfl, fun i hi => absurd hi (List.not_mem_nil i)⟩
  | succ d ih =>
    intro p s r hs
    by_cases hc : p < bs.length ∧ s < 7 * 10
    · rw [readVarint64.loopTraced, if_pos hc, readVarint64.loop, dif_pos hc]
      simp only [List.getD_eq_getElem bs 0 hc.1]
      by_cases hbit : bs[p].val &&& 0x80 = 0
      · simp only [hbit, if_true, List.mem_singleton, true_and]
        intro i hi
        omega
      · simp only [hbit, if_false]
        obtain ⟨e1, e2⟩ := ih (p + 1) (s + 7)
          (r ||| (((bs[p].val &&& 0x7F) <<< s) % 2 ^ 64)) (by omega)
        refine ⟨e1, fun i hi => ?_⟩
        rcases List.mem_cons.1 hi with h | h
        · omega
        · have := e2 i h
          omega
    · rw [readVarint64.loopTraced, if_neg hc, readVarint64.loop, dif_neg hc]
      exact ⟨rfl, fun i hi => absurd hi (List.not_mem_nil i)⟩

theorem readVarint64Traced_spec (bs : List Byte) (p : Nat) :
    (readVarint64Traced bs p).1 = readVarint64 bs p ∧
      ∀ i ∈ (readVarint64Traced bs p).2, p ≤ i ∧ i < bs.length := by
  by_cases h : p ≥ bs.length
  · rw [readVarint64Traced, if_pos h, readVarint64, dif_pos h]
    exact ⟨rfl, fun i hi => absurd hi (List.not_mem_nil i)⟩
  · have hlt : p < bs.length := by omega
    rw [readVarint64Traced, if_neg h, readVarint64, dif_neg h]
    simp only [List.getD_eq_getElem bs 0 hlt]
    by_cases hbit : bs[p].val &&& 0x80 = 0
    · simp only [hbit, if_true, List.mem_singleton, true_and]
      intro i hi
      omega
    · simp only [hbit, if_false]
      obtain ⟨e1, e2⟩ := readVarint64_loopTraced_spec bs (7 * 10) (p + 1) 7
        (bs[p].val &&& 0x7F) (by omega)
      refine ⟨e1, fun i hi => ?_⟩
      rcases List.mem_cons.1 hi with h | h
      · omega
      · have := e2 i h
        omega

theorem readSint64Traced_spec (bs : List Byte) (p : Nat) :
    (readSint64Traced bs p).1 = readSint64 bs p ∧
      ∀ i ∈ (readSint64Traced bs p).2, p ≤ i ∧ i < bs.length := by
  by_cases h : p ≥ bs.length
  · rw [readSint64Traced, if_pos h, readSint64, dif_pos h]
    exact ⟨rfl, fun i hi => absurd hi (List.not_mem_nil i)⟩
  · have hlt : p < bs.length := by omega
    obtain ⟨e1, e2⟩ := readVarint64Traced_spec bs p
    rw [readSint64Traced, if_neg h, readSint64, dif_neg h]
    simp only [List.getD_eq_getElem bs 0 hlt, Nat.add_sub_cancel]
    by_cases hbit : bs[p].val &&& 0x80 = 0
    · simp only [hbit, if_true, List.mem_singleton, true_and]
      intro i hi
      omega
    · simp only [hbit, if_false, e1]
      have hmem : ∀ i ∈ p :: (readVarint64Traced bs p).2, p ≤ i ∧ i < bs.length := by
        intro i hi
        rcases List.mem_cons.1 hi with h | h
        · omega
        · exact e2 i h
      cases hout : (readVarint64 bs p).out with
      | none => exact ⟨rfl, hmem⟩
      | some raw => exact ⟨rfl, hmem⟩

/-! ## Signed codec: fast path and reads inside a longer buffer -/

theorem zigZagEncode32_small_iff (n : Int) (h : IsInt32 n) :
    zigZagEncode32 n < 0x80 ↔ -64 ≤ n ∧ n ≤ 63 := by
  have e := zigZagEncode32_eq n h
  split_ifs at e <;> omega

theorem zigZagEncode64_small_iff (n : Int) (h : IsInt64 n) :
    zigZagEncode64 n < 0x80 ↔ -64 ≤ n ∧ n ≤ 63 := by
  have e := zigZagEncode64_eq n h
  split_ifs at e <;> omega

theorem toUInt64_sign_extend (n : Int) (h : IsInt32 n) :
    toUInt64 n =
      if toUInt32 n < 2 ^ 31 then toUInt32 n else toUInt32 n + (2 ^ 64 - 2 ^ 32) := by
  obtain ⟨h0, h1⟩ := h
  unfold toUInt64 toUInt32
  split_ifs <;> omega

theorem writeSint32_small (n : Int) (h : zigZagEncode32 n < 0x80) :
    writeSint32 n = [toByte (zigZagEncode32 n)] ∧
      (toByte (zigZagEncode32 n)).val = zigZagEncode32 n := by
  refine ⟨?_, ?_⟩
  · rw [writeSint32_eq, writeVarint32_lt _ h]
  · rw [toByte_val]; omega

theorem readSint32_append (n : Int) (h : IsInt32 n) (rest : List Byte) :
    readSint32 (writeSint32 n ++ rest) 0 = ⟨some n, (writeSint32 n).length⟩ := by
  apply readSint32_of_take_eq (writeSint32 n) _ n _ (readSint32_writeSint32 n h)
  rw [List.take_left, List.take_length]

theorem readSint32_at_append (pre bs : List Byte) :
    readSint32 (pre ++ bs) pre.length =
      ⟨(readSint32 bs 0).out, pre.length + (readSint32 bs 0).ptr⟩ := by
  rw [readSint32_eq, readSint32_eq, readVarint32_at_append]
theorem writeSint64_small (n : Int) (h : zigZagEncode64 n < 0x80) :
    writeSint64 n = [toByte (zigZagEncode64 n)] ∧
      (toByte (zigZagEncode64 n)).val = zigZagEncode64 n := by
  refine ⟨?_, ?_⟩
  · rw [writeSint64_eq, writeVarint64_lt _ h]
  · rw [toByte_val]; omega

theorem readSint64_append (n : Int) (h : IsInt64 n) (rest : List Byte) :
    readSint64 (writeSint64 n ++ rest) 0 = ⟨some n, (writeSint64 n).length⟩ := by
  apply readSint64_of_take_eq (writeSint64 n) _ n _ (readSint64_writeSint64 n h)
  rw [List.take_left, List.take_length]

theorem readSint64_at_append (pre bs : List Byte) :
    readSint64 (pre ++ bs) pre.length =
      ⟨(readSint64 bs 0).out, pre.length + (readSint64 bs 0).ptr⟩ := by
  rw [readSint64_eq, readSint64_eq, readVarint64_at_append]

/-! ## Contracts -/

/-- C1. Unsigned round trip, 32-bit: for every 32-bit unsigned `v`, `readVarint32` run from the
start of exactly the bytes stored by `writeVarint32 v` returns `true`, stores `v` in `out`, and
leaves the cursor at the end of those bytes. -/
theorem readVarint32_roundtrip (v : Nat) (hv : v < 2 ^ 32) :
    readVarint32 (writeVarint32 v) 0 = ⟨some v, (writeVarint32 v).length⟩ :=
  readVarint32_writeVarint32 v hv

/-- Instance of C1 at `v = 2 ^ 32 - 1`, whose encoding is `FF FF FF FF 0F`. -/
theorem readVarint32_roundtrip_witness :
    4294967295 < 2 ^ 32 ∧
      readVarint32 [0xFF, 0xFF, 0xFF, 0xFF, 0x0F] 0 = ⟨some 4294967295, 5⟩ := by
  have e : writeVarint32 4294967295 = [0xFF, 0xFF, 0xFF, 0xFF, 0x0F] := by
    simp [writeVarint32, writeVarint32.loop, toByte]
  have h := readVarint32_roundtrip 4294967295 (by norm_num)
  rw [e] at h
  exact ⟨by norm_num, h⟩

/-- C2. Unsigned round trip, 64-bit: for every 64-bit unsigned `v`, `readVarint64` run from the
start of exactly the bytes stored by `writeVarint64 v` returns `true`, stores `v` in `out`, and
leaves the cursor at the end of those bytes.  The witness is `v = 2 ^ 64 - 1`, whose encoding
has all ten groups. -/
theorem readVarint64_roundtrip (v : Nat) (hv : v < 2 ^ 64) :
    readVarint64 (writeVarint64 v) 0 = ⟨some v, (writeVarint64 v).length⟩ :=
  readVarint64_writeVarint64 v hv

/-- Instance of C2 at `v = 2 ^ 64 - 1`, whose encoding has all ten groups. -/
theorem readVarint64_roundtrip_witness :
    18446744073709551615 < 2 ^ 64 ∧
      readVarint64 [0xFF, 0xFF, 0xFF, 0xFF, 0xFF, 0xFF, 0xFF, 0xFF, 0xFF, 0x01] 0 =
        ⟨some 18446744073709551615, 10⟩ := by
  have e : writeVarint64 18446744073709551615 =
      [0xFF, 0xFF, 0xFF, 0xFF, 0xFF, 0xFF, 0xFF, 0xFF, 0xFF, 0x01] := by
    simp [writeVarint64, writeVarint64.loop, toByte]
  have h := readVarint64_roundtrip 18446744073709551615 (by norm_num)
  rw [e] at h
  exact ⟨by norm_num, h⟩

/-- C3. Signed round trip: for every `int32_t` value `n`, `readSint32` run from the start of
exactly the bytes stored by `writeSint32 n` returns `true`, stores `n` and leaves the cursor at
the end of those bytes; likewise `readSint64` and `writeSint64` for every `int64_t` value. -/
theorem readSint_roundtrip (n : Int) :
    (IsInt32 n → readSint32 (writeSint32 n) 0 = ⟨some n, (writeSint32 n).length⟩) ∧
    (IsInt64 n → readSint64 (writeSint64 n) 0 = ⟨some n, (writeSint64 n).length⟩) :=
  ⟨readSint32_writeSint32 n, readSint64_writeSint64 n⟩

/-- Instance of C3 at the minimum `int32_t` and the minimum `int64_t` value. -/
theorem readSint_roundtrip_witness :
    (IsInt32 (-2147483648) ∧
      readSint32 (writeSint32 (-2147483648)) 0 =
        ⟨some (-2147483648), (writeSint32 (-2147483648)).length⟩) ∧
    (IsInt64 (-9223372036854775808) ∧
      readSint64 (writeSint64 (-9223372036854775808)) 0 =
        ⟨some (-9223372036854775808), (writeSint64 (-9223372036854775808)).length⟩) :=
  ⟨⟨by decide, (readSint_roundtrip (-2147483648)).1 (by decide)⟩,
    ⟨by decide, (readSint_roundtrip (-9223372036854775808)).2 (by decide)⟩⟩

/-- C4. ZigZag decode undoes encode: `zigZagDecode32 (zigZagEncode32 n) = n` for every
`int32_t` value `n`, and `zigZagDecode64 (zigZagEncode64 n) = n` for every `int64_t` value. -/
theorem zigZag_decode_encode (n : Int) :
    (IsInt32 n → zigZagDecode32 (zigZagEncode32 n) = n) ∧
    (IsInt64 n → zigZagDecode64 (zigZagEncode64 n) = n) :=
  ⟨zigZagDecode32_encode32 n, zigZagDecode64_encode64 n⟩

/-- Instance of C4 at the minimum `int32_t` and the minimum `int64_t` value. -/
theorem zigZag_decode_encode_witness :
    (IsInt32 (-2147483648) ∧ zigZagDecode32 (zigZagEncode32 (-2147483648)) = -2147483648) ∧
    (IsInt64 (-9223372036854775808) ∧
      zigZagDecode64 (zigZagEncode64 (-9223372036854775808)) = -9223372036854775808) :=
  ⟨⟨by decide, (zigZag_decode_encode (-2147483648)).1 (by decide)⟩,
    ⟨by decide, (zigZag_decode_encode (-9223372036854775808)).2 (by decide)⟩⟩

/-- C5. ZigZag encode undoes decode: `zigZagEncode32 (zigZagDecode32 u) = u` for every
`uint32_t` value `u` and `zigZagEncode64 (zigZagDecode64 u) = u` for every `uint64_t` value;
and the encoder of each width is a bijection from the signed values of that width onto the
unsigned ones. -/
theorem zigZag_encode_decode (u : Nat) :
    (u < 2 ^ 32 → zigZagEncode32 (zigZagDecode32 u) = u) ∧
    (u < 2 ^ 64 → zigZagEncode64 (zigZagDecode64 u) = u) ∧
    Set.BijOn zigZagEncode32 {n | IsInt32 n} {x | x < 2 ^ 32} ∧
    Set.BijOn zigZagEncode64 {n | IsInt64 n} {x | x < 2 ^ 64} := by
  refine ⟨zigZagEncode32_decode32 u, zigZagEncode64_decode64 u, ?_, ?_⟩
  · exact Set.InvOn.bijOn
      ⟨fun n hn => zigZagDecode32_encode32 n hn, fun x hx => zigZagEncode32_decode32 x hx⟩
      (fun n hn => zigZagEncode32_lt n hn) (fun x hx => zigZagDecode32_isInt32 x hx)
  · exact Set.InvOn.bijOn
      ⟨fun n hn => zigZagDecode64_encode64 n hn, fun x hx => zigZagEncode64_decode64 x hx⟩
      (fun n hn => zigZagEncode64_lt n hn) (fun x hx => zigZagDecode64_isInt64 x hx)

/-- Instance of C5 at `u = 2 ^ 32 - 1` for both widths. -/
theorem zigZag_encode_decode_witness :
    (4294967295 < 2 ^ 32 ∧ zigZagEncode32 (zigZagDecode32 4294967295) = 4294967295) ∧
    (4294967295 < 2 ^ 64 ∧ zigZagEncode64 (zigZagDecode64 4294967295) = 4294967295) :=
  ⟨⟨by norm_num, (zigZag_encode_decode 4294967295).1 (by norm_num)⟩,
    ⟨by norm_num, (zigZag_encode_decode 4294967295).2.1 (by norm_num)⟩⟩

/-- C6. ZigZag closed form: for every `int32_t` value `n`, `zigZagEncode32 n` is the number
`2 * n` when `n ≥ 0` and `-2 * n - 1` when `n < 0`, a value below `2 ^ 32`; the inputs
`0, -1, 1, -2, 2` map to `0, 1, 2, 3, 4`, and `zigZagDecode32` maps these back. -/
theorem zigZagEncode32_closed_form (n : Int) :
    (IsInt32 n →
      (zigZagEncode32 n : Int) = (if 0 ≤ n then 2 * n else -2 * n - 1) ∧
        zigZagEncode32 n < 2 ^ 32) ∧
    (zigZagEncode32 0 = 0 ∧ zigZagEncode32 (-1) = 1 ∧ zigZagEncode32 1 = 2 ∧
      zigZagEncode32 (-2) = 3 ∧ zigZagEncode32 2 = 4) ∧
    (zigZagDecode32 0 = 0 ∧ zigZagDecode32 1 = -1 ∧ zigZagDecode32 2 = 1 ∧
      zigZagDecode32 3 = -2 ∧ zigZagDecode32 4 = 2) := by
  refine ⟨fun h => ⟨zigZagEncode32_eq n h, zigZagEncode32_lt n h⟩, ?_, ?_⟩ <;> decide

/-- Instance of C6 at `n = -3`, which encodes to `5`. -/
theorem zigZagEncode32_closed_form_witness :
    IsInt32 (-3) ∧ (zigZagEncode32 (-3) : Int) = 5 ∧ zigZagEncode32 (-3) < 2 ^ 32 := by
  have h := (zigZagEncode32_closed_form (-3)).1 (by decide)
  exact ⟨by decide, by simpa using h.1, h.2⟩

/-- C7. Writer wire format: for every 32-bit unsigned `v`, `writeVarint32 v` stores `L ≥ 1`
bytes; byte `i` for every `i < L - 1` is `((v >> 7 * i) & 0x7F) | 0x80`, and byte `L - 1` is
`v >> 7 * (L - 1)`, which is below 128; the same holds for `writeVarint64` on every 64-bit
unsigned `v`.  In particular `writeVarint32` maps 0, 127, 128, 300 to `[0x00]`, `[0x7F]`,
`[0x80, 0x01]`, `[0xAC, 0x02]`. -/
theorem writeVarint_wire_format (v : Nat) :
    (v < 2 ^ 32 →
      1 ≤ (writeVarint32 v).length ∧
      (∀ i, i + 1 < (writeVarint32 v).length →
        ((writeVarint32 v)[i]?).map Fin.val = some (((v >>> (7 * i)) &&& 0x7F) ||| 0x80)) ∧
      ((writeVarint32 v)[(writeVarint32 v).length - 1]?).map Fin.val =
        some (v >>> (7 * ((writeVarint32 v).length - 1))) ∧
      v >>> (7 * ((writeVarint32 v).length - 1)) < 0x80) ∧
    (v < 2 ^ 64 →
      1 ≤ (writeVarint64 v).length ∧
      (∀ i, i + 1 < (writeVarint64 v).length →
        ((writeVarint64 v)[i]?).map Fin.val = some (((v >>> (7 * i)) &&& 0x7F) ||| 0x80)) ∧
      ((writeVarint64 v)[(writeVarint64 v).length - 1]?).map Fin.val =
        some (v >>> (7 * ((writeVarint64 v).length - 1))) ∧
      v >>> (7 * ((writeVarint64 v).length - 1)) < 0x80) ∧
    (writeVarint32 0 = [0x00] ∧ writeVarint32 127 = [0x7F] ∧
      writeVarint32 128 = [0x80, 0x01] ∧ writeVarint32 300 = [0xAC, 0x02]) := by
  refine ⟨fun _ => writeVarint32_wire v, fun _ => writeVarint64_wire v, ?_, ?_, ?_, ?_⟩ <;>
    simp [writeVarint32, writeVarint32.loop, toByte]

/-- Instance of C7 at `v = 300`: two bytes, `(300 & 0x7F) | 0x80` then `300 >> 7`. -/
theorem writeVarint_wire_format_witness :
    (300 < 2 ^ 32 ∧ (writeVarint32 300).length = 2 ∧
      ((writeVarint32 300)[0]?).map Fin.val = some (((300 >>> (7 * 0)) &&& 0x7F) ||| 0x80) ∧
      ((writeVarint32 300)[1]?).map Fin.val = some (300 >>> (7 * 1))) ∧
    (300 < 2 ^ 64 ∧ (writeVarint64 300).length = 2 ∧
      ((writeVarint64 300)[0]?).map Fin.val = some (((300 >>> (7 * 0)) &&& 0x7F) ||| 0x80) ∧
      ((writeVarint64 300)[1]?).map Fin.val = some (300 >>> (7 * 1))) := by
  have e32 : (writeVarint32 300).length = 2 := by
    simp [writeVarint32, writeVarint32.loop]
  have e64 : (writeVarint64 300).length = 2 := by
    simp [writeVarint64, writeVarint64.loop]
  have h32 := (writeVarint_wire_format 300).1 (by norm_num)
  have h64 := (writeVarint_wire_format 300).2.1 (by norm_num)
  rw [e32] at h32
  rw [e64] at h64
  exact ⟨⟨by norm_num, e32, h32.2.1 0 (by norm_num), h32.2.2.1⟩,
    ⟨by norm_num, e64, h64.2.1 0 (by norm_num), h64.2.2.1⟩⟩

/-- C8. Minimal length: for every 32-bit unsigned `v` the number of bytes stored by
`writeVarint32 v`, and for every 64-bit unsigned `v` the number stored by `writeVarint64 v`,
is `ceil (bitsNeeded v / 7)`, where `bitsNeeded 0 = 1` and, for `v > 0`, `bitsNeeded v` is the
position of the highest set bit plus one (`2 ^ (bitsNeeded v - 1) ≤ v < 2 ^ bitsNeeded v`). -/
theorem writeVarint_minimal_length (v : Nat) :
    (v < 2 ^ 32 → (writeVarint32 v).length = ⌈(bitsNeeded v : ℚ) / 7⌉₊) ∧
    (v < 2 ^ 64 → (writeVarint64 v).length = ⌈(bitsNeeded v : ℚ) / 7⌉₊) ∧
    bitsNeeded 0 = 1 ∧
    (0 < v → 2 ^ (bitsNeeded v - 1) ≤ v ∧ v < 2 ^ bitsNeeded v) := by
  refine ⟨fun _ => ?_, fun _ => ?_, by decide, bitsNeeded_spec v⟩
  · rw [ceil_div_seven, writeVarint32_length]
  · rw [ceil_div_seven, writeVarint64_length]

/-- Instance of C8 at `v = 2 ^ 14`, the least value that needs three bytes. -/
theorem writeVarint_minimal_length_witness :
    (16384 < 2 ^ 32 ∧ (writeVarint32 16384).length = ⌈(bitsNeeded 16384 : ℚ) / 7⌉₊) ∧
    (16384 < 2 ^ 64 ∧ (writeVarint64 16384).length = ⌈(bitsNeeded 16384 : ℚ) / 7⌉₊) ∧
    (0 < 16384 ∧ 2 ^ (bitsNeeded 16384 - 1) ≤ 16384 ∧ 16384 < 2 ^ bitsNeeded 16384) :=
  ⟨⟨by norm_num, (writeVarint_minimal_length 16384).1 (by norm_num)⟩,
    ⟨by norm_num, (writeVarint_minimal_length 16384).2.1 (by norm_num)⟩,
    ⟨by norm_num, (writeVarint_minimal_length 16384).2.2.2 (by norm_num)⟩⟩

/-- C9. Writer capacity bound: the `while (value >= 0x80)` loop of each writer (a total
function) reaches its exit condition `value < 0x80` after at most 4 iterations for a 32-bit
value and at most 9 for a 64-bit one; `writeVarint32` and `writeSint32` store at most 5 bytes
for every 32-bit value, `writeVarint64` and `writeSint64` at most 10 for every 64-bit value. -/
theorem writer_capacity_bound (v : Nat) (n : Int) :
    (v < 2 ^ 32 →
      (writeVarint32.loop [] v).2 < 0x80 ∧ (writeVarint32.loop [] v).1.length ≤ 4 ∧
        (writeVarint32 v).length ≤ 5) ∧
    (IsInt32 n → (writeSint32 n).length ≤ 5) ∧
    (v < 2 ^ 64 →
      (writeVarint64.loop [] v).2 < 0x80 ∧ (writeVarint64.loop [] v).1.length ≤ 9 ∧
        (writeVarint64 v).length ≤ 10) ∧
    (IsInt64 n → (writeSint64 n).length ≤ 10) := by
  refine ⟨writeVarint32_capacity v, fun h => ?_, writeVarint64_capacity v, fun h => ?_⟩
  · rw [writeSint32_eq]
    exact (writeVarint32_capacity _ (zigZagEncode32_lt n h)).2.2
  · rw [writeSint64_eq]
    exact (writeVarint64_capacity _ (zigZagEncode64_lt n h)).2.2

/-- Instance of C9 at `v = 2 ^ 32 - 1` and at the minimum `int32_t` value. -/
theorem writer_capacity_bound_witness :
    (4294967295 < 2 ^ 32 ∧ (writeVarint32 4294967295).length ≤ 5) ∧
    (IsInt32 (-2147483648) ∧ (writeSint32 (-2147483648)).length ≤ 5) ∧
    (4294967295 < 2 ^ 64 ∧ (writeVarint64 4294967295).length ≤ 10) ∧
    (IsInt64 (-2147483648) ∧ (writeSint64 (-2147483648)).length ≤ 10) :=
  ⟨⟨by norm_num, ((writer_capacity_bound 4294967295 (-2147483648)).1 (by norm_num)).2.2⟩,
    ⟨by decide, (writer_capacity_bound 4294967295 (-2147483648)).2.1 (by decide)⟩,
    ⟨by norm_num, ((writer_capacity_bound 4294967295 (-2147483648)).2.2.1 (by norm_num)).2.2⟩,
    ⟨by decide, (writer_capacity_bound 4294967295 (-2147483648)).2.2.2 (by decide)⟩⟩

/-- C10. Reader value on success: if byte `k` of `bs` has its high bit clear and every byte
before it has its high bit set, then for `k < min (length bs) 5` `readVarint32` returns `true`,
consumes exactly `k + 1` bytes and stores the sum over `i ≤ k` of `(bs[i] & 0x7F) * 2 ^ (7 * i)`
reduced modulo `2 ^ 32`, and for `k < min (length bs) 10` `readVarint64` does the same modulo
`2 ^ 64`.  Payload bits at positions past the width are dropped, not rejected:
`readVarint32` on `[0xFF, 0xFF, 0xFF, 0xFF, 0x7F]` stores `0xFFFFFFFF`. -/
theorem readVarint_value_on_success (bs : List Byte) (k : Nat) :
    ((bs.getD k 0).val &&& 0x80 = 0 → (∀ i, i < k → (bs.getD i 0).val &&& 0x80 ≠ 0) →
      (k < min bs.length 5 →
        readVarint32 bs 0 =
          ⟨some ((∑ i ∈ Finset.range (k + 1), ((bs.getD i 0).val &&& 0x7F) * 2 ^ (7 * i))
            % 2 ^ 32), k + 1⟩) ∧
      (k < min bs.length 10 →
        readVarint64 bs 0 =
          ⟨some ((∑ i ∈ Finset.range (k + 1), ((bs.getD i 0).val &&& 0x7F) * 2 ^ (7 * i))
            % 2 ^ 64), k + 1⟩)) ∧
    readVarint32 [0xFF, 0xFF, 0xFF, 0xFF, 0x7F] 0 = ⟨some 0xFFFFFFFF, 5⟩ := by
  refine ⟨fun hterm hcont => ⟨fun hk => ?_, fun hk => ?_⟩, ?_⟩
  · exact readVarint32_value bs k hk hterm hcont
  · exact readVarint64_value bs k hk hterm hcont
  · simp [readVarint32, readVarint32.loop]
    decide

/-- Instance of C10 on `FF FF FF FF 7F 01` with `k = 4`: the 35 payload bits are kept in 64 bits and cut to 32 bits by `readVarint32`; the sixth byte is not consumed. -/
theorem readVarint_value_on_success_witness :
    readVarint32 [0xFF, 0xFF, 0xFF, 0xFF, 0x7F, 0x01] 0 = ⟨some 4294967295, 5⟩ ∧
    readVarint64 [0xFF, 0xFF, 0xFF, 0xFF, 0x7F, 0x01] 0 = ⟨some 34359738367, 5⟩ := by
  have h := (readVarint_value_on_success [0xFF, 0xFF, 0xFF, 0xFF, 0x7F, 0x01] 4).1
    (by decide) (by decide)
  have h32 := h.1 (by decide)
  have h64 := h.2 (by decide)
  have e : (∑ i ∈ Finset.range (4 + 1),
      ((([0xFF, 0xFF, 0xFF, 0xFF, 0x7F, 0x01] : List Byte).getD i 0).val &&& 0x7F)
        * 2 ^ (7 * i)) = 34359738367 := by
    simp [Finset.sum_range_succ]
    decide
  rw [e] at h32 h64
  exact ⟨h32, h64⟩

/-- C11. Reader fails exactly on truncated or over-long input: `readVarint32` returns `false`
if and only if each of the first `min (length bs) 5` bytes of `bs` has its high bit set, and
`readVarint64` if and only if each of the first `min (length bs) 10` has.  This covers the
empty buffer, the one-byte buffer `[0xAC]`, and six bytes with the continuation bit set fed to
`readVarint32`. -/
theorem readVarint_fails_iff (bs : List Byte) :
    ((readVarint32 bs 0).out = none ↔
      ∀ i, i < min bs.length 5 → (bs.getD i 0).val &&& 0x80 ≠ 0) ∧
    ((readVarint64 bs 0).out = none ↔
      ∀ i, i < min bs.length 10 → (bs.getD i 0).val &&& 0x80 ≠ 0) ∧
    (readVarint32 [] 0).out = none ∧ (readVarint64 [] 0).out = none ∧
    (readVarint32 [0xAC] 0).out = none ∧ (readVarint64 [0xAC] 0).out = none ∧
    (readVarint32 [0x80, 0x80, 0x80, 0x80, 0x80, 0x80] 0).out = none := by
  refine ⟨readVarint32_fail_iff bs, readVarint64_fail_iff bs, ?_, ?_, ?_, ?_, ?_⟩
  · simp [readVarint32]
  · simp [readVarint64]
  · exact (readVarint32_fail_iff _).2 (by decide)
  · exact (readVarint64_fail_iff _).2 (by decide)
  · exact (readVarint32_fail_iff _).2 (by decide)

/-- C12. Signed reader is ZigZag-decode composed with the varint reader: from every cursor of
every byte sequence, `readSint32` returns the same success flag and the same final cursor as
`readVarint32`, and what it stores is `zigZagDecode32` of what `readVarint32` stores;
likewise `readSint64` and `readVarint64`. -/
theorem readSint_refines_readVarint (bs : List Byte) (ptr : Nat) :
    ((readSint32 bs ptr).out = (readVarint32 bs ptr).out.map zigZagDecode32 ∧
      (readSint32 bs ptr).out.isSome = (readVarint32 bs ptr).out.isSome ∧
      (readSint32 bs ptr).ptr = (readVarint32 bs ptr).ptr) ∧
    ((readSint64 bs ptr).out = (readVarint64 bs ptr).out.map zigZagDecode64 ∧
      (readSint64 bs ptr).out.isSome = (readVarint64 bs ptr).out.isSome ∧
      (readSint64 bs ptr).ptr = (readVarint64 bs ptr).ptr) := by
  rw [readSint32_eq, readSint64_eq]
  simp

/-- C13. Signed writer is the varint writer applied to the ZigZag encoding: `writeSint32 n`
stores exactly the bytes of `writeVarint32 (zigZagEncode32 n)` and `writeSint64 n` exactly
those of `writeVarint64 (zigZagEncode64 n)`; the single-byte fast path changes nothing. -/
theorem writeSint_eq_writeVarint_zigZag (n : Int) :
    writeSint32 n = writeVarint32 (zigZagEncode32 n) ∧
    writeSint64 n = writeVarint64 (zigZagEncode64 n) :=
  ⟨writeSint32_eq n, writeSint64_eq n⟩

/-- C14. Fast-path equivalence: for every `int32_t` value `n`, `zigZagEncode32 n < 128` holds
exactly when `-64 ≤ n ≤ 63`; for such `n`, `writeSint32 n` stores the one byte
`zigZagEncode32 n`, and `readSint32` on that byte followed by any further bytes returns
`true`, stores `n` and consumes exactly one byte. -/
theorem sint32_fast_path (n : Int) (h : IsInt32 n) :
    (zigZagEncode32 n < 128 ↔ -64 ≤ n ∧ n ≤ 63) ∧
    (zigZagEncode32 n < 128 →
      writeSint32 n = [toByte (zigZagEncode32 n)] ∧
      (toByte (zigZagEncode32 n)).val = zigZagEncode32 n ∧
      ∀ rest : List Byte, readSint32 (toByte (zigZagEncode32 n) :: rest) 0 = ⟨some n, 1⟩) := by
  refine ⟨zigZagEncode32_small_iff n h, fun hs => ?_⟩
  obtain ⟨e1, e2⟩ := writeSint32_small n hs
  refine ⟨e1, e2, fun rest => ?_⟩
  have hr := readSint32_append n h rest
  rw [e1] at hr
  exact hr

/-- Instance of C14 at `n = -64`, the least value on the fast path: one byte `0x7F`, read back
with an unrelated byte after it. -/
theorem sint32_fast_path_witness :
    IsInt32 (-64) ∧ zigZagEncode32 (-64) < 128 ∧ writeSint32 (-64) = [0x7F] ∧
      readSint32 [0x7F, 0xFF] 0 = ⟨some (-64), 1⟩ := by
  have e : zigZagEncode32 (-64) = 127 := by decide
  have h := (sint32_fast_path (-64) (by decide)).2 (by decide)
  rw [e] at h
  exact ⟨by decide, by decide, h.1, h.2.2 [0xFF]⟩

/-- C15. Canonical-minimal writer: for every 32-bit unsigned `v`, no byte sequence shorter than
`writeVarint32 v` is fully consumed and decoded to `v` by `readVarint32` (indeed every
successful read of `v` consumes at least as many bytes as `writeVarint32 v` has), and when
`writeVarint32 v` has more than one byte its last byte is not zero; likewise for
`writeVarint64` and `readVarint64` on every 64-bit unsigned `v`. -/
theorem writeVarint_canonical_minimal (v : Nat) (bs : List Byte) :
    (v < 2 ^ 32 →
      (bs.length < (writeVarint32 v).length → readVarint32 bs 0 ≠ ⟨some v, bs.length⟩) ∧
      (∀ m, readVarint32 bs 0 = ⟨some v, m⟩ → (writeVarint32 v).length ≤ m) ∧
      (1 < (writeVarint32 v).length →
        ∃ b, (writeVarint32 v)[(writeVarint32 v).length - 1]? = some b ∧ b.val ≠ 0)) ∧
    (v < 2 ^ 64 →
      (bs.length < (writeVarint64 v).length → readVarint64 bs 0 ≠ ⟨some v, bs.length⟩) ∧
      (∀ m, readVarint64 bs 0 = ⟨some v, m⟩ → (writeVarint64 v).length ≤ m) ∧
      (1 < (writeVarint64 v).length →
        ∃ b, (writeVarint64 v)[(writeVarint64 v).length - 1]? = some b ∧ b.val ≠ 0)) := by
  refine ⟨fun _ => ⟨fun hl hr => ?_, fun m hr => readVarint32_min_length bs v m hr,
      writeVarint32_last_ne_zero v⟩,
    fun _ => ⟨fun hl hr => ?_, fun m hr => readVarint64_min_length bs v m hr,
      writeVarint64_last_ne_zero v⟩⟩
  · have := readVarint32_min_length bs v _ hr
    omega
  · have := readVarint64_min_length bs v _ hr
    omega

/-- Instance of C15 at `v = 128` and the one-byte sequence `[0x00]`, which is shorter than
`writeVarint32 128 = [0x80, 0x01]` and is not read as 128. -/
theorem writeVarint_canonical_minimal_witness :
    (128 < 2 ^ 32 ∧ readVarint32 [0x00] 0 ≠ ⟨some 128, 1⟩) ∧
    (128 < 2 ^ 64 ∧ readVarint64 [0x00] 0 ≠ ⟨some 128, 1⟩) := by
  have e32 : (writeVarint32 128).length = 2 := by simp [writeVarint32, writeVarint32.loop]
  have e64 : (writeVarint64 128).length = 2 := by simp [writeVarint64, writeVarint64.loop]
  have h32 := ((writeVarint_canonical_minimal 128 [0x00]).1 (by norm_num)).1
  have h64 := ((writeVarint_canonical_minimal 128 [0x00]).2 (by norm_num)).1
  rw [e32] at h32
  rw [e64] at h64
  exact ⟨⟨by norm_num, h32 (by decide)⟩, ⟨by norm_num, h64 (by decide)⟩⟩

/-- C16, as stated, fails: `[0xFF, 0xFF, 0xFF, 0xFF, 0x7F]` has the length of
`writeVarint32 0xFFFFFFFF`, is fully consumed by `readVarint32` and decoded to `0xFFFFFFFF`,
and differs from `writeVarint32 0xFFFFFFFF = [0xFF, 0xFF, 0xFF, 0xFF, 0x0F]`; the same happens
to `readVarint64` with nine `0xFF` followed by `0x7F` and the value `2 ^ 64 - 1`. -/
theorem readVarint_unique_counterexample :
    (4294967295 < 2 ^ 32 ∧
      ([0xFF, 0xFF, 0xFF, 0xFF, 0x7F] : List Byte).length = (writeVarint32 4294967295).length ∧
      readVarint32 [0xFF, 0xFF, 0xFF, 0xFF, 0x7F] 0 =
        ⟨some 4294967295, ([0xFF, 0xFF, 0xFF, 0xFF, 0x7F] : List Byte).length⟩ ∧
      ([0xFF, 0xFF, 0xFF, 0xFF, 0x7F] : List Byte) ≠ writeVarint32 4294967295) ∧
    (18446744073709551615 < 2 ^ 64 ∧
      ([0xFF, 0xFF, 0xFF, 0xFF, 0xFF, 0xFF, 0xFF, 0xFF, 0xFF, 0x7F] : List Byte).length =
        (writeVarint64 18446744073709551615).length ∧
      readVarint64 [0xFF, 0xFF, 0xFF, 0xFF, 0xFF, 0xFF, 0xFF, 0xFF, 0xFF, 0x7F] 0 =
        ⟨some 18446744073709551615,
          ([0xFF, 0xFF, 0xFF, 0xFF, 0xFF, 0xFF, 0xFF, 0xFF, 0xFF, 0x7F] : List Byte).length⟩ ∧
      ([0xFF, 0xFF, 0xFF, 0xFF, 0xFF, 0xFF, 0xFF, 0xFF, 0xFF, 0x7F] : List Byte) ≠
        writeVarint64 18446744073709551615) := by
  have e32 : writeVarint32 4294967295 = [0xFF, 0xFF, 0xFF, 0xFF, 0x0F] := by
    simp [writeVarint32, writeVarint32.loop, toByte]
  have e64 : writeVarint64 18446744073709551615 =
      [0xFF, 0xFF, 0xFF, 0xFF, 0xFF, 0xFF, 0xFF, 0xFF, 0xFF, 0x01] := by
    simp [writeVarint64, writeVarint64.loop, toByte]
  rw [e32, e64]
  refine ⟨⟨by norm_num, rfl, ?_, by decide⟩, ⟨by norm_num, rfl, ?_, by decide⟩⟩
  · simp [readVarint32, readVarint32.loop]
    decide
  · simp [readVarint64, readVarint64.loop]
    decide

/-- C16, amended: for every 32-bit unsigned `v`, a byte sequence `bs` of the length of
`writeVarint32 v` that `readVarint32` fully consumes and decodes to `v` is equal to
`writeVarint32 v` provided its payload groups denote a number below `2 ^ 32`, that is
provided no payload bit sits at a position the reader drops; this always holds when `bs` has
fewer than 5 bytes.  Likewise for `writeVarint64`, `readVarint64`, `2 ^ 64` and 10 bytes. -/
theorem readVarint_unique_in_range (v : Nat) (bs : List Byte) :
    (v < 2 ^ 32 → bs.length = (writeVarint32 v).length →
      readVarint32 bs 0 = ⟨some v, bs.length⟩ →
      (payload bs bs.length < 2 ^ 32 → bs = writeVarint32 v) ∧
      (bs.length < 5 → bs = writeVarint32 v)) ∧
    (v < 2 ^ 64 → bs.length = (writeVarint64 v).length →
      readVarint64 bs 0 = ⟨some v, bs.length⟩ →
      (payload bs bs.length < 2 ^ 64 → bs = writeVarint64 v) ∧
      (bs.length < 10 → bs = writeVarint64 v)) := by
  refine ⟨fun _ hl hr => ⟨fun hp => readVarint32_unique bs v hr hl hp, fun h5 => ?_⟩,
    fun _ hl hr => ⟨fun hp => readVarint64_unique bs v hr hl hp, fun h10 => ?_⟩⟩
  · exact readVarint32_unique bs v hr hl
      (lt_of_lt_of_le (payload_lt bs bs.length) (Nat.pow_le_pow_right (by decide) (by omega)))
  · exact readVarint64_unique bs v hr hl
      (lt_of_lt_of_le (payload_lt bs bs.length) (Nat.pow_le_pow_right (by decide) (by omega)))

/-- Instance of amended C16 at `v = 300` and `bs = [0xAC, 0x02]`. -/
theorem readVarint_unique_in_range_witness :
    (300 < 2 ^ 32 ∧ readVarint32 [0xAC, 0x02] 0 = ⟨some 300, 2⟩ ∧
      ([0xAC, 0x02] : List Byte) = writeVarint32 300) ∧
    (300 < 2 ^ 64 ∧ readVarint64 [0xAC, 0x02] 0 = ⟨some 300, 2⟩ ∧
      ([0xAC, 0x02] : List Byte) = writeVarint64 300) := by
  have e32 : (writeVarint32 300).length = 2 := by simp [writeVarint32, writeVarint32.loop]
  have e64 : (writeVarint64 300).length = 2 := by simp [writeVarint64, writeVarint64.loop]
  have r32 : readVarint32 [0xAC, 0x02] 0 = ⟨some 300, 2⟩ := by
    simp [readVarint32, readVarint32.loop]
    decide
  have r64 : readVarint64 [0xAC, 0x02] 0 = ⟨some 300, 2⟩ := by
    simp [readVarint64, readVarint64.loop]
    decide
  exact ⟨⟨by norm_num, r32,
      ((readVarint_unique_in_range 300 [0xAC, 0x02]).1 (by norm_num) e32.symm r32).2
        (by decide)⟩,
    ⟨by norm_num, r64,
      ((readVarint_unique_in_range 300 [0xAC, 0x02]).2 (by norm_num) e64.symm r64).2
        (by decide)⟩⟩

/-- C17. Cursor stays inside the buffer: for each of `readVarint32`, `readVarint64`,
`readSint32`, `readSint64`, called with a cursor `ptr` inside the view `bs`, the cursor after
the call is at least `ptr` and at most `length bs`, whether the call succeeds or fails, and is
strictly past `ptr` on success; and every offset the reader dereferences is at least `ptr` and
below `length bs` (the traced reader computes the same outcome and records only such
offsets). -/
theorem reader_cursor_in_bounds (bs : List Byte) (ptr : Nat) (h : ptr ≤ bs.length) :
    (ptr ≤ (readVarint32 bs ptr).ptr ∧ (readVarint32 bs ptr).ptr ≤ bs.length ∧
      ((readVarint32 bs ptr).out ≠ none → ptr < (readVarint32 bs ptr).ptr) ∧
      (readVarint32Traced bs ptr).1 = readVarint32 bs ptr ∧
      ∀ i ∈ (readVarint32Traced bs ptr).2, ptr ≤ i ∧ i < bs.length) ∧
    (ptr ≤ (readVarint64 bs ptr).ptr ∧ (readVarint64 bs ptr).ptr ≤ bs.length ∧
      ((readVarint64 bs ptr).out ≠ none → ptr < (readVarint64 bs ptr).ptr) ∧
      (readVarint64Traced bs ptr).1 = readVarint64 bs ptr ∧
      ∀ i ∈ (readVarint64Traced bs ptr).2, ptr ≤ i ∧ i < bs.length) ∧
    (ptr ≤ (readSint32 bs ptr).ptr ∧ (readSint32 bs ptr).ptr ≤ bs.length ∧
      ((readSint32 bs ptr).out ≠ none → ptr < (readSint32 bs ptr).ptr) ∧
      (readSint32Traced bs ptr).1 = readSint32 bs ptr ∧
      ∀ i ∈ (readSint32Traced bs ptr).2, ptr ≤ i ∧ i < bs.length) ∧
    (ptr ≤ (readSint64 bs ptr).ptr ∧ (readSint64 bs ptr).ptr ≤ bs.length ∧
      ((readSint64 bs ptr).out ≠ none → ptr < (readSint64 bs ptr).ptr) ∧
      (readSint64Traced bs ptr).1 = readSint64 bs ptr ∧
      ∀ i ∈ (readSint64Traced bs ptr).2, ptr ≤ i ∧ i < bs.length) := by
  obtain ⟨a1, a2, a3⟩ := readVarint32_ptr_bounds bs ptr h
  obtain ⟨b1, b2, b3⟩ := readVarint64_ptr_bounds bs ptr h
  obtain ⟨c1, c2, c3⟩ := readSint32_ptr_bounds bs ptr h
  obtain ⟨d1, d2, d3⟩ := readSint64_ptr_bounds bs ptr h
  exact ⟨⟨a1, a2, a3, (readVarint32Traced_spec bs ptr).1,
      (readVarint32Traced_spec bs ptr).2⟩,
    ⟨b1, b2, b3, (readVarint64Traced_spec bs ptr).1,
      (readVarint64Traced_spec bs ptr).2⟩,
    ⟨c1, c2, c3, (readSint32Traced_spec bs ptr).1,
      (readSint32Traced_spec bs ptr).2⟩,
    ⟨d1, d2, d3, (readSint64Traced_spec bs ptr).1,
      (readSint64Traced_spec bs ptr).2⟩⟩

/-- Instance of C17 on the truncated buffer `[0x01, 0xAC]` read from offset 1: `readSint32`
fails with the cursor at the end of the view, having dereferenced offset 1 only (twice: the
lead byte, and again after the unread). -/
theorem reader_cursor_in_bounds_witness :
    1 ≤ ([0x01, 0xAC] : List Byte).length ∧
      1 ≤ (readSint32 [0x01, 0xAC] 1).ptr ∧ (readSint32 [0x01, 0xAC] 1).ptr ≤ 2 ∧
      (readSint32Traced [0x01, 0xAC] 1).1 = readSint32 [0x01, 0xAC] 1 ∧
      ∀ i ∈ (readSint32Traced [0x01, 0xAC] 1).2, 1 ≤ i ∧ i < 2 := by
  have h := (reader_cursor_in_bounds [0x01, 0xAC] 1 (by decide)).2.2.1
  exact ⟨by decide, h.1, h.2.1, h.2.2.2.1, h.2.2.2.2⟩

/-- C18. Self-delimiting reads: if a reader among `readVarint32`, `readVarint64`,
`readSint32`, `readSint64` succeeds on `bs` with value `v` after consuming `k` bytes, then it
succeeds with the same value after consuming the same `k` bytes on every `bs2` whose first `k`
bytes are those of `bs`.  Hence two values written back to back are read back in order. -/
theorem reads_self_delimiting (bs bs2 : List Byte) (k : Nat) :
    (bs2.take k = bs.take k →
      (∀ v, readVarint32 bs 0 = ⟨some v, k⟩ → readVarint32 bs2 0 = ⟨some v, k⟩) ∧
      (∀ v, readVarint64 bs 0 = ⟨some v, k⟩ → readVarint64 bs2 0 = ⟨some v, k⟩) ∧
      (∀ n, readSint32 bs 0 = ⟨some n, k⟩ → readSint32 bs2 0 = ⟨some n, k⟩) ∧
      (∀ n, readSint64 bs 0 = ⟨some n, k⟩ → readSint64 bs2 0 = ⟨some n, k⟩)) ∧
    (∀ v w, v < 2 ^ 32 → w < 2 ^ 32 →
      readVarint32 (writeVarint32 v ++ writeVarint32 w) 0 =
        ⟨some v, (writeVarint32 v).length⟩ ∧
      readVarint32 (writeVarint32 v ++ writeVarint32 w) (writeVarint32 v).length =
        ⟨some w, (writeVarint32 v).length + (writeVarint32 w).length⟩) ∧
    (∀ v w, v < 2 ^ 64 → w < 2 ^ 64 →
      readVarint64 (writeVarint64 v ++ writeVarint64 w) 0 =
        ⟨some v, (writeVarint64 v).length⟩ ∧
      readVarint64 (writeVarint64 v ++ writeVarint64 w) (writeVarint64 v).length =
        ⟨some w, (writeVarint64 v).length + (writeVarint64 w).length⟩) ∧
    (∀ m n, IsInt32 m → IsInt32 n →
      readSint32 (writeSint32 m ++ writeSint32 n) 0 = ⟨some m, (writeSint32 m).length⟩ ∧
      readSint32 (writeSint32 m ++ writeSint32 n) (writeSint32 m).length =
        ⟨some n, (writeSint32 m).length + (writeSint32 n).length⟩) ∧
    (∀ m n, IsInt64 m → IsInt64 n →
      readSint64 (writeSint64 m ++ writeSint64 n) 0 = ⟨some m, (writeSint64 m).length⟩ ∧
      readSint64 (writeSint64 m ++ writeSint64 n) (writeSint64 m).length =
        ⟨some n, (writeSint64 m).length + (writeSint64 n).length⟩) := by
  refine ⟨fun hpre => ⟨fun v hr => readVarint32_of_take_eq bs bs2 v k hr hpre,
      fun v hr => readVarint64_of_take_eq bs bs2 v k hr hpre,
      fun n hr => readSint32_of_take_eq bs bs2 n k hr hpre,
      fun n hr => readSint64_of_take_eq bs bs2 n k hr hpre⟩,
    fun v w hv hw => ⟨readVarint32_append v hv _, ?_⟩,
    fun v w hv hw => ⟨readVarint64_append v hv _, ?_⟩,
    fun m n hm hn => ⟨readSint32_append m hm _, ?_⟩,
    fun m n hm hn => ⟨readSint64_append m hm _, ?_⟩⟩
  · rw [readVarint32_at_append, readVarint32_writeVarint32 w hw]
  · rw [readVarint64_at_append, readVarint64_writeVarint64 w hw]
  · rw [readSint32_at_append, readSint32_writeSint32 n hn]
  · rw [readSint64_at_append, readSint64_writeSint64 n hn]

/-- Instance of C18: `[0xAC, 0x02]` is read as 300 in two bytes, and so is
`[0xAC, 0x02, 0xFF, 0xFF]`; and 300 followed by 1 is read back as 300, then 1. -/
theorem reads_self_delimiting_witness :
    (([0xAC, 0x02, 0xFF, 0xFF] : List Byte).take 2 = ([0xAC, 0x02] : List Byte).take 2 ∧
      readVarint32 [0xAC, 0x02] 0 = ⟨some 300, 2⟩ ∧
      readVarint32 [0xAC, 0x02, 0xFF, 0xFF] 0 = ⟨some 300, 2⟩) ∧
    (300 < 2 ^ 32 ∧ 1 < 2 ^ 32 ∧
      readVarint32 (writeVarint32 300 ++ writeVarint32 1) (writeVarint32 300).length =
        ⟨some 1, (writeVarint32 300).length + (writeVarint32 1).length⟩) := by
  have r32 : readVarint32 [0xAC, 0x02] 0 = ⟨some 300, 2⟩ := by
    simp [readVarint32, readVarint32.loop]
    decide
  exact ⟨⟨by decide, r32,
      ((reads_self_delimiting [0xAC, 0x02] [0xAC, 0x02, 0xFF, 0xFF] 2).1 (by decide)).1 300 r32⟩,
    ⟨by norm_num, by norm_num,
      ((reads_self_delimiting [] [] 0).2.1 300 1 (by norm_num) (by norm_num)).2⟩⟩

/-- C19. The 64-bit reader extends the 32-bit reader: whenever `readVarint32` succeeds on `bs`
with value `v` after consuming `k` bytes, `readVarint64` succeeds on `bs` after consuming `k`
bytes with a value whose low 32 bits are `v`, and which is `v` itself when `k ≤ 4`. -/
theorem readVarint64_extends_readVarint32 (bs : List Byte) (v k : Nat)
    (h : readVarint32 bs 0 = ⟨some v, k⟩) :
    ∃ v64, readVarint64 bs 0 = ⟨some v64, k⟩ ∧ v64 % 2 ^ 32 = v ∧ (k ≤ 4 → v64 = v) :=
  ⟨payload bs k, readVarint64_of_readVarint32 bs v k h⟩

/-- Instance of C19 on `[0xFF, 0xFF, 0xFF, 0xFF, 0x7F]`: `readVarint32` stores `2 ^ 32 - 1`,
`readVarint64` stores a value with these low 32 bits, after five bytes each. -/
theorem readVarint64_extends_readVarint32_witness :
    readVarint32 [0xFF, 0xFF, 0xFF, 0xFF, 0x7F] 0 = ⟨some 4294967295, 5⟩ ∧
      ∃ v64, readVarint64 [0xFF, 0xFF, 0xFF, 0xFF, 0x7F] 0 = ⟨some v64, 5⟩ ∧
        v64 % 2 ^ 32 = 4294967295 ∧ (5 ≤ 4 → v64 = 4294967295) := by
  have r32 : readVarint32 [0xFF, 0xFF, 0xFF, 0xFF, 0x7F] 0 = ⟨some 4294967295, 5⟩ := by
    simp [readVarint32, readVarint32.loop]
    decide
  exact ⟨r32, readVarint64_extends_readVarint32 _ 4294967295 5 r32⟩

/-- C20. Width-independent signed encoding: for every `int32_t` value `n`, `writeSint64`
applied to `n` as an `int64_t` (the same integer, whose 64-bit pattern is the sign extension
of the 32-bit one) stores exactly the bytes of `writeSint32 n`: `zigZagEncode64 n` is the
number `zigZagEncode32 n`, and `writeVarint64` agrees with `writeVarint32` on every value
below `2 ^ 32`. -/
theorem writeSint64_of_int32 (n : Int) (h : IsInt32 n) :
    writeSint64 n = writeSint32 n ∧
    zigZagEncode64 n = zigZagEncode32 n ∧
    (∀ v, v < 2 ^ 32 → writeVarint64 v = writeVarint32 v) ∧
    IsInt64 n ∧
    toUInt64 n = (if toUInt32 n < 2 ^ 31 then toUInt32 n else toUInt32 n + (2 ^ 64 - 2 ^ 32)) := by
  refine ⟨?_, zigZagEncode64_eq_zigZagEncode32 n h,
    fun v _ => writeVarint64_eq_writeVarint32 v, ?_, toUInt64_sign_extend n h⟩
  · rw [writeSint64_eq, writeSint32_eq, zigZagEncode64_eq_zigZagEncode32 n h,
      writeVarint64_eq_writeVarint32]
  · obtain ⟨h0, h1⟩ := h
    exact ⟨by omega, by omega⟩

/-- Instance of C20 at the minimum `int32_t` value. -/
theorem writeSint64_of_int32_witness :
    IsInt32 (-2147483648) ∧ writeSint64 (-2147483648) = writeSint32 (-2147483648) ∧
      zigZagEncode64 (-2147483648) = zigZagEncode32 (-2147483648) :=
  ⟨by decide, (writeSint64_of_int32 (-2147483648) (by decide)).1,
    (writeSint64_of_int32 (-2147483648) (by decide)).2.1⟩

end proto.codec
